import Mathlib

/-!
Verification development for a resumable, auditable workflow execution
engine (a claim-handling workflow driven by a step graph with interrupt
guards, persisted in a namespaced key-value store).

The definitions below are a shallow embedding of the Python source
(`test.py`): Python dicts of inputs become association lists over an
inductive `Value` type (so that Python truthiness is expressible),
wall-clock ISO timestamps become a logical `Nat` clock threaded through
every operation that stores a timestamp, and the in-memory store becomes
a record of four association lists (one per namespace).  Fallible
operations return the partially mutated engine state together with an
`Except`, mirroring an exception raised part-way through a call.
-/

/-- A Python value as far as this engine inspects it: strings, integers
and `None`.  Enough to express both equality tests (`== "yes"`) and
truthiness tests (`if bag.get("claim_details")`). -/
inductive Value where
  | vStr (s : String)
  | vInt (n : Int)
  | vNone
  deriving DecidableEq, Repr

/-- Python truthiness of a `Value`: empty string, zero and `None` are
falsy, everything else is truthy. -/
def Value.truthy : Value → Bool
  | .vStr s => !s.isEmpty
  | .vInt n => n != 0
  | .vNone => false

/-- Lookup in an insertion-ordered string-keyed mapping (a Python dict,
which never holds duplicate keys): `some` exactly when the key is
present, whatever the value. -/
def alistGet {α : Type} (l : List (String × α)) (k : String) : Option α :=
  match l with
  | [] => none
  | p :: t => if p.1 == k then some p.2 else alistGet t k

/-- Assignment `d[k] = v` in such a mapping: overwrite the binding in
place when the key is present, append otherwise (Python dicts keep
insertion order). -/
def alistPut {α : Type} (l : List (String × α)) (k : String) (v : α) : List (String × α) :=
  match l with
  | [] => [(k, v)]
  | p :: t => if p.1 == k then (k, v) :: t else p :: alistPut t k v

/-- The `bag` of an instance: an insertion-ordered mapping from string
keys to values, as a Python dict is. -/
abbrev Bag := List (String × Value)

/-- Dict lookup: `bag.get(k)` / `k in bag`. -/
def bagGet (b : Bag) (k : String) : Option Value := alistGet b k

/-- Dict assignment `bag[k] = v`. -/
def bagSet (b : Bag) (k : String) (v : Value) : Bag := alistPut b k v

/-- Dict merge `bag.update(updates)`: apply each assignment in order. -/
def bagUpdate (b : Bag) (updates : List (String × Value)) : Bag :=
  updates.foldl (fun acc kv => bagSet acc kv.1 kv.2) b

/-- The transient `meta` sub-dict of an Execution State, written by step
functions during a run.  `status` is always present once `start` built
the state; the timestamps and `last_node` may be absent. -/
structure SMeta where
  status : String
  last_node : Option String := none
  start_time : Option Nat := none
  end_time : Option Nat := none
  deriving DecidableEq, Repr

/-- Execution State of one instance:
`{instance_id, customer_id, workflow_name, bag, meta}`. -/
structure ExecState where
  instance_id : String
  customer_id : String
  workflow_name : String
  bag : Bag
  meta : SMeta
  deriving DecidableEq, Repr

/-- `ensure_defaults`: `bag`/`meta` always exist in the typed model; the
one observable effect left is `meta.setdefault("start_time", now_iso())`,
which consumes a clock tick only when it actually stores a timestamp. -/
def ensure_defaults (s : ExecState) (c : Nat) : ExecState × Nat :=
  match s.meta.start_time with
  | some _ => (s, c)
  | none => ({ s with meta := { s.meta with start_time := some c } }, c + 1)

/-- Helper shared by every step function: `s["meta"]["last_node"] = n`. -/
def withLastNode (s : ExecState) (n : String) : ExecState :=
  { s with meta := { s.meta with last_node := some n } }

/-- Outcome of one step function: the mutated state, the clock, and
`some prompt` when the step returned an `Interrupt` (a Pause). -/
abbrev StepOut := ExecState × Nat × Option String

/-- Step `Validate Request`. -/
def validate_request (s : ExecState) (c : Nat) : StepOut :=
  let (s, c) := ensure_defaults s c
  let s := withLastNode s "Validate Request"
  if bagGet s.bag "validate" = none then (s, c, some "Validate request? (yes/no)")
  else (s, c, none)

/-- Step `Gather Claim Info`. -/
def gather_claim_info (s : ExecState) (c : Nat) : StepOut :=
  let (s, c) := ensure_defaults s c
  let s := withLastNode s "Gather Claim Info"
  if bagGet s.bag "claim_details" = none then (s, c, some "Provide claim details")
  else (s, c, none)

/-- Step `Identify Accounts & Process Decision`. -/
def identify_accounts (s : ExecState) (c : Nat) : StepOut :=
  let (s, c) := ensure_defaults s c
  let s := withLastNode s "Identify Accounts & Process Decision"
  if bagGet s.bag "process_decision" = none then (s, c, some "Decision? cancel / hold / suppress")
  else (s, c, none)

/-- Step `Cancel CWD Request` (terminal): sets `status = aborted`,
`end_time = now`, `bag["result"] = "Workflow aborted."`. -/
def cancel_request (s : ExecState) (c : Nat) : StepOut :=
  let (s, c) := ensure_defaults s c
  let s := withLastNode s "Cancel CWD Request"
  let s := { s with meta := { s.meta with status := "aborted", end_time := some c } }
  let s := { s with bag := bagSet s.bag "result" (.vStr "Workflow aborted.") }
  (s, c + 1, none)

/-- Step `Hold Request`. -/
def hold_request (s : ExecState) (c : Nat) : StepOut :=
  let (s, c) := ensure_defaults s c
  let s := withLastNode s "Hold Request"
  if bagGet s.bag "hold_action" = none then (s, c, some "Workflow on hold. Command: resume / abort")
  else (s, c, none)

/-- Step `Apply Temporary Suppression`. -/
def apply_suppression (s : ExecState) (c : Nat) : StepOut :=
  let (s, c) := ensure_defaults s c
  let s := withLastNode s "Apply Temporary Suppression"
  if bagGet s.bag "proceed_fulfill" = none then (s, c, some "Proceed to fulfill? (yes/no)")
  else (s, c, none)

/-- Step `Fulfill Case and Detect` (terminal): sets `status = completed`,
`end_time = now`, `bag["result"] = "Fulfilled and detection complete."`. -/
def fulfill_case (s : ExecState) (c : Nat) : StepOut :=
  let (s, c) := ensure_defaults s c
  let s := withLastNode s "Fulfill Case and Detect"
  let s := { s with meta := { s.meta with status := "completed", end_time := some c } }
  let s := { s with bag := bagSet s.bag "result" (.vStr "Fulfilled and detection complete.") }
  (s, c + 1, none)

/-- The named steps of the claim workflow graph. -/
inductive Node where
  | validate | gather | identify | cancel | hold | suppress | fulfill
  deriving DecidableEq, Repr

/-- The display name each node registers under (`g.add_node(name, fn)`). -/
def Node.name : Node → String
  | .validate => "Validate Request"
  | .gather => "Gather Claim Info"
  | .identify => "Identify Accounts & Process Decision"
  | .cancel => "Cancel CWD Request"
  | .hold => "Hold Request"
  | .suppress => "Apply Temporary Suppression"
  | .fulfill => "Fulfill Case and Detect"

/-- Conditional edge out of `Validate Request` (`none` is `END`); the
graph consults it only when the step did not pause. -/
def validateGuard (b : Bag) : Option Node :=
  if bagGet b "validate" = some (.vStr "yes") then some .gather
  else if bagGet b "validate" = some (.vStr "no") then some .cancel
  else none

/-- Conditional edge out of `Gather Claim Info`: Python truthiness of
`bag.get("claim_details")`, not mere presence. -/
def gatherGuard (b : Bag) : Option Node :=
  if (match bagGet b "claim_details" with
      | some v => v.truthy
      | none => false) then some .identify
  else none

/-- Conditional edge out of `Identify Accounts & Process Decision`. -/
def identifyGuard (b : Bag) : Option Node :=
  if bagGet b "process_decision" = some (.vStr "cancel") then some .cancel
  else if bagGet b "process_decision" = some (.vStr "hold") then some .hold
  else if bagGet b "process_decision" = some (.vStr "suppress") then some .suppress
  else none

/-- Conditional edge out of `Hold Request`. -/
def holdGuard (b : Bag) : Option Node :=
  if bagGet b "hold_action" = some (.vStr "resume") then some .suppress
  else if bagGet b "hold_action" = some (.vStr "abort") then some .cancel
  else none

/-- Conditional edge out of `Apply Temporary Suppression`. -/
def suppressGuard (b : Bag) : Option Node :=
  if bagGet b "proceed_fulfill" = some (.vStr "yes") then some .fulfill
  else if bagGet b "proceed_fulfill" = some (.vStr "no") then some .cancel
  else none

/-- Result of one full graph traversal (`graph.invoke(state)`): either an
`Interrupt` carrying a prompt (the state holds the mutations the executed
nodes made up to and including the pausing node) or the final state. -/
inductive RunResult where
  | paused (s : ExecState) (c : Nat) (prompt : String)
  | done (s : ExecState) (c : Nat)
  deriving DecidableEq, Repr

/-- Traversal continuing at `Cancel CWD Request`; its only edge is END. -/
def runCancel (s : ExecState) (c : Nat) : RunResult :=
  let (s, c, _) := cancel_request s c
  .done s c

/-- Traversal continuing at `Fulfill Case and Detect`; its only edge is END. -/
def runFulfill (s : ExecState) (c : Nat) : RunResult :=
  let (s, c, _) := fulfill_case s c
  .done s c

/-- Traversal continuing at `Apply Temporary Suppression`. -/
def runSuppress (s : ExecState) (c : Nat) : RunResult :=
  match apply_suppression s c with
  | (s, c, some p) => .paused s c p
  | (s, c, none) =>
    match suppressGuard s.bag with
    | some .fulfill => runFulfill s c
    | some .cancel => runCancel s c
    | _ => .done s c

/-- Traversal continuing at `Hold Request`. -/
def runHold (s : ExecState) (c : Nat) : RunResult :=
  match hold_request s c with
  | (s, c, some p) => .paused s c p
  | (s, c, none) =>
    match holdGuard s.bag with
    | some .suppress => runSuppress s c
    | some .cancel => runCancel s c
    | _ => .done s c

/-- Traversal continuing at `Identify Accounts & Process Decision`. -/
def runIdentify (s : ExecState) (c : Nat) : RunResult :=
  match identify_accounts s c with
  | (s, c, some p) => .paused s c p
  | (s, c, none) =>
    match identifyGuard s.bag with
    | some .cancel => runCancel s c
    | some .hold => runHold s c
    | some .suppress => runSuppress s c
    | _ => .done s c

/-- Traversal continuing at `Gather Claim Info`. -/
def runGather (s : ExecState) (c : Nat) : RunResult :=
  match gather_claim_info s c with
  | (s, c, some p) => .paused s c p
  | (s, c, none) =>
    match gatherGuard s.bag with
    | some .identify => runIdentify s c
    | _ => .done s c

/-- Traversal starting at the entry step `Validate Request`. -/
def runValidate (s : ExecState) (c : Nat) : RunResult :=
  match validate_request s c with
  | (s, c, some p) => .paused s c p
  | (s, c, none) =>
    match validateGuard s.bag with
    | some .gather => runGather s c
    | some .cancel => runCancel s c
    | _ => .done s c

/-- `graph.invoke(state)`: one full traversal pass from the entry step. -/
def graphInvoke (s : ExecState) (c : Nat) : RunResult :=
  runValidate s c

example :
    (match graphInvoke
      { instance_id := "i", customer_id := "c", workflow_name := "w", bag := [],
        meta := { status := "in_progress", start_time := some 0 } } 1 with
     | .paused _ _ p => p
     | .done _ _ => "") = "Validate request? (yes/no)" := by rfl

/-- One entry of `steps_history`: `{ts, node, actor, status}`. -/
structure HistEntry where
  ts : Nat
  node : String
  actor : String
  status : String
  deriving DecidableEq, Repr

/-- The audit-facing `InstanceMeta` dataclass. -/
structure InstanceMeta where
  instance_id : String
  customer_id : String
  workflow_name : String
  started_by : String
  last_actor : Option String := none
  status : String := "in_progress"
  last_node : Option String := none
  start_time : Option Nat := none
  end_time : Option Nat := none
  steps_history : List HistEntry := []
  deriving DecidableEq, Repr

/-- The heterogeneous `data` dict attached to an event, one shape per
call site of `_append_event`. -/
inductive EventData where
  | created (customer_id : String)
  | resumeUpdates (updates : List (String × Value))
  | promptOf (prompt : String)
  | resultOf (result : Option Value)
  | empty
  deriving DecidableEq, Repr

/-- One event of the append-only log:
`{ts, instance_id, event, node, status, actor, data}`. -/
structure Event where
  ts : Nat
  instance_id : String
  event : String
  node : Option String
  status : String
  actor : Option String
  data : EventData
  deriving DecidableEq, Repr

/-- The `InMemoryStore`, restricted to the four namespaces the engine
uses; the index namespace holds the single key `"instances"`. -/
structure Store where
  states : List (String × ExecState) := []
  metas : List (String × InstanceMeta) := []
  events : List (String × List Event) := []
  index : List String := []
  deriving DecidableEq, Repr

/-- Engine-visible mutable world: the store plus the logical clock that
stands in for `now_iso()`. -/
structure EngineState where
  store : Store := {}
  clock : Nat := 0
  deriving DecidableEq, Repr

/-- The empty world a fresh `InMemoryStore` provides. -/
def engineInit : EngineState := {}

/-- The workflow name the engine is constructed with. -/
def engineWorkflowName : String := "ClaimWorkflow"

/-- A call summary, discriminated by `status` exactly as the returned
dicts are. -/
inductive Summary where
  | pausedS (prompt : String) (instance_id : String)
  | completedS (node : String) (result : Option Value) (instance_id : String)
  | abortedS (node : String) (result : Option Value) (instance_id : String)
  | inProgressS (node : String) (instance_id : String)
  deriving DecidableEq, Repr

/-- `_add_to_index`: ensure membership, appending at most once. -/
def addToIndex (st : Store) (id : String) : Store :=
  if id ∈ st.index then st else { st with index := st.index ++ [id] }

/-- `_append_event`: read the instance's log (empty if none), append one
timestamped event, write the log back. -/
def appendEvent (e : EngineState) (id : String) (event : String) (node : Option String)
    (status : String) (actor : Option String) (data : EventData) : EngineState :=
  let evs := (alistGet e.store.events id).getD []
  let ev : Event := { ts := e.clock, instance_id := id, event := event, node := node,
                      status := status, actor := actor, data := data }
  { store := { e.store with events := alistPut e.store.events id (evs ++ [ev]) },
    clock := e.clock + 1 }

/-- `_put_meta` (the dataclass round-trip `to_dict`/`from_dict` is the
identity on the record and is elided). -/
def putMeta (st : Store) (m : InstanceMeta) : Store :=
  { st with metas := alistPut st.metas m.instance_id m }

/-- `_put_state`: persist an Execution State. -/
def putState (st : Store) (id : String) (s : ExecState) : Store :=
  { st with states := alistPut st.states id s }

/-- `_update_meta_from_state`: the Instance Metadata Projector.  Loads
the existing metadata (raising `Missing meta` if absent), copies
`last_actor`, `last_node`, first `start_time`, any `end_time` and
`status` from the run state, appends a `steps_history` entry when
`last_node` differs from the last recorded node, persists and returns
the updated metadata.  On the error path the engine state is returned
untouched, as nothing was written before the raise. -/
def updateMetaFromState (e : EngineState) (id : String) (actor : String) (s : ExecState) :
    EngineState × Except String InstanceMeta :=
  match alistGet e.store.metas id with
  | none => (e, .error "Missing meta")
  | some m =>
    let last_node := s.meta.last_node
    let status := s.meta.status
    let m := { m with last_actor := some actor }
    let m := match last_node with
      | some ln => { m with last_node := some ln }
      | none => m
    let m := match s.meta.start_time, m.start_time with
      | some t, none => { m with start_time := some t }
      | _, _ => m
    let m := match s.meta.end_time with
      | some t => { m with end_time := some t }
      | none => m
    let m := { m with status := status }
    let prev_node := (m.steps_history.getLast?).map (·.node)
    match last_node with
    | some ln =>
      if some ln ≠ prev_node then
        let m := { m with steps_history := m.steps_history ++
          [{ ts := e.clock, node := ln, actor := actor, status := m.status }] }
        ({ e with store := putMeta e.store m, clock := e.clock + 1 }, .ok m)
      else
        ({ e with store := putMeta e.store m }, .ok m)
    | none =>
      ({ e with store := putMeta e.store m }, .ok m)

/-- Default `last_node` to the entry step's name when still unset (the
engine applies this to the state it is about to describe; the store holds
the same dict by reference, so the model persists the defaulted state). -/
def defaultLastNode (s : ExecState) : ExecState :=
  match s.meta.last_node with
  | some _ => s
  | none => { s with meta := { s.meta with last_node := some "Validate Request" } }

/-- `Engine._run`: one run protocol pass shared by `start` and `resume`.
Invokes the graph; on a Pause persists the paused state, projects the
metadata, overrides a non-terminal status to `paused`, appends a `paused`
event, then (inside `update_and_return`) projects the metadata a second
time from the same state and returns the paused summary.  On a final
state, branches on its `meta.status` into the `completed` / `aborted` /
`progressed` outcomes, each appending one event and re-projecting the
metadata before returning. -/
def engineRun (e : EngineState) (id : String) (s : ExecState) (actor : String) :
    EngineState × Except String Summary :=
  match graphInvoke s e.clock with
  | .paused s₀ c p =>
    let s₁ := defaultLastNode s₀
    let e := { store := putState e.store id s₁, clock := c }
    match updateMetaFromState e id actor s₁ with
    | (e, .error msg) => (e, .error msg)
    | (e, .ok meta) =>
      let (e, meta) :=
        if meta.status ≠ "completed" ∧ meta.status ≠ "aborted" then
          let meta := { meta with status := "paused" }
          ({ e with store := putMeta e.store meta }, meta)
        else (e, meta)
      let e := appendEvent e id "paused" s₁.meta.last_node meta.status (some actor) (.promptOf p)
      match updateMetaFromState e id actor s₁ with
      | (e, .error msg) => (e, .error msg)
      | (e, .ok m₂) =>
        let e := { e with store := putMeta e.store m₂ }
        (e, .ok (.pausedS p id))
  | .done r₀ c =>
    let r := defaultLastNode r₀
    let e := { store := putState e.store id r, clock := c }
    match updateMetaFromState e id actor r with
    | (e, .error msg) => (e, .error msg)
    | (e, .ok meta) =>
      let node := (r.meta.last_node).getD "Validate Request"
      let status := r.meta.status
      if status = "completed" then
        let meta := { meta with status := "completed" }
        let e := { e with store := putMeta e.store meta }
        let e := appendEvent e id "completed" (some node) meta.status (some actor)
          (.resultOf (bagGet r.bag "result"))
        match updateMetaFromState e id actor r with
        | (e, .error msg) => (e, .error msg)
        | (e, .ok m₂) =>
          let e := { e with store := putMeta e.store m₂ }
          (e, .ok (.completedS node (bagGet r.bag "result") id))
      else if status = "aborted" then
        let meta := { meta with status := "aborted" }
        let e := { e with store := putMeta e.store meta }
        let e := appendEvent e id "aborted" (some node) meta.status (some actor)
          (.resultOf (bagGet r.bag "result"))
        match updateMetaFromState e id actor r with
        | (e, .error msg) => (e, .error msg)
        | (e, .ok m₂) =>
          let e := { e with store := putMeta e.store m₂ }
          (e, .ok (.abortedS node (bagGet r.bag "result") id))
      else
        let meta := { meta with status := "in_progress" }
        let e := { e with store := putMeta e.store meta }
        let e := appendEvent e id "progressed" (some node) meta.status (some actor) .empty
        match updateMetaFromState e id actor r with
        | (e, .error msg) => (e, .error msg)
        | (e, .ok m₂) =>
          let e := { e with store := putMeta e.store m₂ }
          (e, .ok (.inProgressS node id))

/-- `Engine.start`: build a fresh Execution State and Instance Metadata,
persist both, index the id, append a `created` event, then perform one
run.  The freshly drawn `uuid4` is modelled as the explicit `id`
argument. -/
def start (e : EngineState) (id : String) (customer_id : String) (started_by : String) :
    EngineState × Except String Summary :=
  let t := e.clock
  let s : ExecState :=
    { instance_id := id, customer_id := customer_id, workflow_name := engineWorkflowName,
      bag := [], meta := { status := "in_progress", start_time := some t } }
  let meta : InstanceMeta :=
    { instance_id := id, customer_id := customer_id, workflow_name := engineWorkflowName,
      started_by := started_by, last_actor := some started_by, status := "in_progress",
      start_time := some t }
  let e : EngineState := { store := e.store, clock := t + 1 }
  let e := { e with store := putState e.store id s }
  let e := { e with store := putMeta e.store meta }
  let e := { e with store := addToIndex e.store id }
  let e := appendEvent e id "created" none meta.status (some started_by) (.created customer_id)
  engineRun e id s started_by

/-- `Engine.resume`: load the persisted state (raising `No workflow
found` before any write if absent), merge the updates into the bag by
overwrite, persist, append a `resume_command` event, then perform one
run. -/
def resume (e : EngineState) (id : String) (actor : String) (updates : List (String × Value)) :
    EngineState × Except String Summary :=
  match alistGet e.store.states id with
  | none => (e, .error ("No workflow found: " ++ id))
  | some state =>
    let state := { state with bag := bagUpdate state.bag updates }
    let e := { e with store := putState e.store id state }
    let e := appendEvent e id "resume_command" state.meta.last_node "in_progress" (some actor)
      (.resumeUpdates updates)
    engineRun e id state actor

/-- Sort key used by `list_instances`: the timestamp of the most recent
`steps_history` entry, absent when the history is empty (Python uses the
empty string, which compares below every ISO timestamp). -/
def sortKey (m : InstanceMeta) : Option Nat :=
  (m.steps_history.getLast?).map (·.ts)

/-- Comparison of sort keys: an absent key sorts below every present
one, mirroring `"" < iso_timestamp`. -/
def keyLe : Option Nat → Option Nat → Bool
  | none, _ => true
  | some _, none => false
  | some a, some b => a ≤ b

/-- The boolean filter conjunction `Engine.list_instances` applies to
one metadata record, in the code's test order.  Each guard is
`if workflow_name and m.workflow_name != workflow_name: continue`: the
filter value itself is tested for truthiness first, so an absent filter
and a supplied empty string alike skip the comparison. -/
def matchesFilters (m : InstanceMeta) (customer_id status started_by workflow_name : Option String) :
    Bool :=
  (match workflow_name with | some w => w.isEmpty || m.workflow_name == w | none => true) &&
  (match customer_id with | some c => c.isEmpty || m.customer_id == c | none => true) &&
  (match status with | some st => st.isEmpty || m.status == st | none => true) &&
  (match started_by with | some sb => sb.isEmpty || m.started_by == sb | none => true)

/-- `Engine.list_instances`: walk the index in insertion order, keep the
metadata records passing every supplied filter, then stably sort
descending by `sortKey` (`reverse=True` over the last history timestamp,
with the empty-history sentinel lowest). -/
def list_instances (e : EngineState)
    (customer_id status started_by workflow_name : Option String) : List InstanceMeta :=
  let out := e.store.index.filterMap (fun iid =>
    match alistGet e.store.metas iid with
    | none => none
    | some m =>
      if matchesFilters m customer_id status started_by workflow_name then some m else none)
  out.mergeSort (fun a b => keyLe (sortKey b) (sortKey a))

/-- `Engine.history`. -/
def history (e : EngineState) (id : String) : List Event :=
  (alistGet e.store.events id).getD []

/-- `Engine.get_meta` / `_get_meta`. -/
def get_meta (e : EngineState) (id : String) : Option InstanceMeta :=
  alistGet e.store.metas id

/-! ### Concrete scenario traces used by the scenario claims -/

/-- Cancel scenario, call 1: `start("C1","u1")`. -/
def cancelTrace1 : EngineState × Except String Summary := start engineInit "i1" "C1" "u1"

/-- Cancel scenario, call 2: `resume(id,"u2",{"validate":"yes"})`. -/
def cancelTrace2 : EngineState × Except String Summary :=
  resume cancelTrace1.1 "i1" "u2" [("validate", .vStr "yes")]

/-- Cancel scenario, call 3: `resume(id,"u3",{"claim_details":"x"})`. -/
def cancelTrace3 : EngineState × Except String Summary :=
  resume cancelTrace2.1 "i1" "u3" [("claim_details", .vStr "x")]

/-- Cancel scenario, call 4: `resume(id,"u4",{"process_decision":"cancel"})`. -/
def cancelTrace4 : EngineState × Except String Summary :=
  resume cancelTrace3.1 "i1" "u4" [("process_decision", .vStr "cancel")]

/-- C7: the cancel scenario behaves exactly as specified: `start("C1","u1")`
pauses with prompt `"Validate request? (yes/no)"`; resuming with
`validate=yes` pauses with `"Provide claim details"`; resuming with
`claim_details="x"` pauses with `"Decision? cancel / hold / suppress"`;
resuming with `process_decision="cancel"` returns status `aborted`, node
`"Cancel CWD Request"`, result `"Workflow aborted."`. -/
theorem C7_cancel_scenario :
    cancelTrace1.2 = .ok (.pausedS "Validate request? (yes/no)" "i1") ∧
    cancelTrace2.2 = .ok (.pausedS "Provide claim details" "i1") ∧
    cancelTrace3.2 = .ok (.pausedS "Decision? cancel / hold / suppress" "i1") ∧
    cancelTrace4.2 = .ok (.abortedS "Cancel CWD Request" (some (.vStr "Workflow aborted.")) "i1") := by
  exact ⟨rfl, rfl, rfl, rfl⟩

/-- C1 (code bug evaluation): the first call on a fresh instance returns a
`paused` summary, yet the Instance Metadata persisted in the store at the
end of that same call has status `"in_progress"`, not `"paused"`: the
final metadata projection inside `update_and_return` copies `status` back
from the execution state's meta (which never holds `paused`), overwriting
the explicit `paused` override the engine had just persisted. -/
theorem C1_paused_status_not_persisted :
    cancelTrace1.2 = .ok (.pausedS "Validate request? (yes/no)" "i1") ∧
    (get_meta cancelTrace1.1 "i1").map (·.status) = some "in_progress" := by
  exact ⟨rfl, rfl⟩

/-- Happy-path trace: start, then validate=yes, claim_details, suppress,
proceed_fulfill=yes, reaching `completed`; then one further resume with
`process_decision="cancel"` against the already-completed instance. -/
def fulfillTrace : EngineState :=
  let t1 := start engineInit "j" "C2" "u"
  let t2 := resume t1.1 "j" "u" [("validate", .vStr "yes")]
  let t3 := resume t2.1 "j" "u" [("claim_details", .vStr "x")]
  let t4 := resume t3.1 "j" "u" [("process_decision", .vStr "suppress")]
  (resume t4.1 "j" "u" [("proceed_fulfill", .vStr "yes")]).1

/-- The extra resume issued against the completed instance. -/
def fulfillTraceAfter : EngineState × Except String Summary :=
  resume fulfillTrace "j" "u" [("process_decision", .vStr "cancel")]

/-- C2 (code bug evaluation): an instance whose metadata status is
`completed` accepts a further `resume`, which re-runs the graph, appends a
second terminal (`aborted`) event and flips the metadata status from
`completed` to `aborted`: the event log ends up with two terminal events
and the terminal status is not sticky. -/
theorem C2_second_terminal_outcome :
    (get_meta fulfillTrace "j").map (·.status) = some "completed" ∧
    fulfillTraceAfter.2 = .ok (.abortedS "Cancel CWD Request" (some (.vStr "Workflow aborted.")) "j") ∧
    (get_meta fulfillTraceAfter.1 "j").map (·.status) = some "aborted" ∧
    ((history fulfillTraceAfter.1 "j").filter
      (fun ev => ev.event == "completed" || ev.event == "aborted")).length = 2 := by
  exact ⟨rfl, rfl, rfl, rfl⟩

/-- C5: `resume` against an instance_id with no persisted Execution State
fails with the NotFound error before any write: the returned engine state
is exactly the input one, so every store namespace is unchanged. -/
theorem C5_resume_unknown_not_found (e : EngineState) (id actor : String)
    (updates : List (String × Value))
    (h : alistGet e.store.states id = none) :
    resume e id actor updates = (e, .error ("No workflow found: " ++ id)) := by
  unfold resume
  rw [h]

/-- Witness for C5 at the concrete input of the spec scenario:
`resume("unknown-id", "u", {})` on a fresh engine. -/
theorem C5_resume_unknown_not_found_witness :
    alistGet engineInit.store.states "unknown-id" = none ∧
    resume engineInit "unknown-id" "u" [] =
      (engineInit, .error "No workflow found: unknown-id") := by
  exact ⟨rfl, C5_resume_unknown_not_found engineInit "unknown-id" "u" [] rfl⟩

/-- C6 counterexample: with `claim_details` present in the bag but bound
to the empty string, the Gather Claim Info guard selects the terminal
marker, not `Identify Accounts & Process Decision` — presence of the key
alone does not decide the edge. -/
theorem C6_present_falsy_goes_terminal :
    (bagGet [("claim_details", Value.vStr "")] "claim_details").isSome = true ∧
    gatherGuard [("claim_details", Value.vStr "")] = none := by
  exact ⟨rfl, rfl⟩

/-- C6 (amended): when `claim_details` is present, the Gather Claim Info
guard selects `Identify Accounts & Process Decision` exactly when its
value is truthy in Python's sense (non-empty string, non-zero integer,
not `None`); a present-but-falsy value selects the terminal marker. -/
theorem C6_gather_guard_truthiness (b : Bag) (v : Value)
    (h : bagGet b "claim_details" = some v) :
    gatherGuard b = if v.truthy then some .identify else none := by
  simp [gatherGuard, h]

/-- Witness for C6 at the concrete bag `{claim_details: "x"}`. -/
theorem C6_gather_guard_truthiness_witness :
    bagGet [("claim_details", Value.vStr "x")] "claim_details" = some (.vStr "x") ∧
    gatherGuard [("claim_details", Value.vStr "x")] =
      if (Value.vStr "x").truthy then some .identify else none := by
  exact ⟨rfl, C6_gather_guard_truthiness [("claim_details", Value.vStr "x")] (.vStr "x") rfl⟩

/-! ### Store and projector lemmas -/

/-- Reading back the key just written. -/
theorem alistGet_alistPut_self {α : Type} (l : List (String × α)) (k : String) (v : α) :
    alistGet (alistPut l k v) k = some v := by
  induction l with
  | nil => simp [alistGet, alistPut]
  | cons p t ih =>
    by_cases hp : p.1 = k
    · simp [alistGet, alistPut, hp]
    · simp [alistGet, alistPut, hp, ih]

/-- Reading a different key after a write. -/
theorem alistGet_alistPut_ne {α : Type} (l : List (String × α)) (k : String) (v : α)
    (k' : String) (h : k' ≠ k) :
    alistGet (alistPut l k v) k' = alistGet l k' := by
  induction l with
  | nil => simp [alistGet, alistPut, Ne.symm h]
  | cons p t ih =>
    by_cases hp : p.1 = k
    · simp [alistGet, alistPut, hp, Ne.symm h, h]
    · by_cases hq : p.1 = k'
      · simp [alistGet, alistPut, hp, hq, h]
      · simp [alistGet, alistPut, hp, hq, ih]

/-- Writing the value just read leaves the mapping unchanged. -/
theorem alistPut_self {α : Type} (l : List (String × α)) (k : String) (v : α)
    (h : alistGet l k = some v) : alistPut l k v = l := by
  induction l with
  | nil => simp [alistGet] at h
  | cons p t ih =>
    by_cases hp : p.1 = k
    · simp only [alistGet, hp, beq_self_eq_true, if_pos] at h
      cases h
      cases p
      simp_all [alistPut]
    · simp only [alistGet, hp] at h
      rw [if_neg (by simpa using hp)] at h
      simp only [alistPut]
      rw [if_neg (by simpa using hp)]
      rw [ih h]

/-- `putState` leaves the metadata namespace alone. -/
theorem putState_metas (st : Store) (id : String) (s : ExecState) :
    (putState st id s).metas = st.metas := rfl

/-- `putState` leaves the event namespace alone. -/
theorem putState_events (st : Store) (id : String) (s : ExecState) :
    (putState st id s).events = st.events := rfl

/-- `putMeta` leaves the event namespace alone. -/
theorem putMeta_events (st : Store) (m : InstanceMeta) :
    (putMeta st m).events = st.events := rfl

/-- `putMeta` leaves the state namespace alone. -/
theorem putMeta_states (st : Store) (m : InstanceMeta) :
    (putMeta st m).states = st.states := rfl

/-- `appendEvent` leaves the metadata namespace alone. -/
theorem appendEvent_metas (e : EngineState) (id ev : String) (node : Option String)
    (status : String) (actor : Option String) (data : EventData) :
    (appendEvent e id ev node status actor data).store.metas = e.store.metas := rfl

/-- `appendEvent` leaves the state namespace alone. -/
theorem appendEvent_states (e : EngineState) (id ev : String) (node : Option String)
    (status : String) (actor : Option String) (data : EventData) :
    (appendEvent e id ev node status actor data).store.states = e.store.states := rfl

/-- The log of the instance an event is appended for grows by that event. -/
theorem history_appendEvent_self (e : EngineState) (id ev : String) (node : Option String)
    (status : String) (actor : Option String) (data : EventData) :
    history (appendEvent e id ev node status actor data) id =
      history e id ++ [{ ts := e.clock, instance_id := id, event := ev, node := node,
                         status := status, actor := actor, data := data }] := by
  simp [history, appendEvent, alistGet_alistPut_self]

/-- Raw form of the previous lemma, phrased on the store field. -/
theorem appendEvent_events_self (e : EngineState) (id ev : String) (node : Option String)
    (status : String) (actor : Option String) (data : EventData) :
    alistGet (appendEvent e id ev node status actor data).store.events id =
      some ((alistGet e.store.events id).getD [] ++
        [{ ts := e.clock, instance_id := id, event := ev, node := node,
           status := status, actor := actor, data := data }]) := by
  simp [appendEvent, alistGet_alistPut_self]

/-- A new history is the old one with zero or more entries appended. -/
def HistExtends (old new : List HistEntry) : Prop := ∃ t, new = old ++ t

theorem histExtends_refl (h : List HistEntry) : HistExtends h h := ⟨[], by simp⟩

theorem histExtends_trans {a b c : List HistEntry} (h₁ : HistExtends a b)
    (h₂ : HistExtends b c) : HistExtends a c := by
  obtain ⟨t₁, rfl⟩ := h₁
  obtain ⟨t₂, rfl⟩ := h₂
  exact ⟨t₁ ++ t₂, by simp⟩

theorem histExtends_nil (h : List HistEntry) : HistExtends [] h := ⟨h, by simp⟩

/-- No two consecutive entries share a `node` value. -/
def noConsecDupNodes : List HistEntry → Bool
  | [] => true
  | [_] => true
  | a :: b :: t => (a.node != b.node) && noConsecDupNodes (b :: t)

/-- Appending an entry whose node differs from the last recorded one
preserves the no-consecutive-duplicates property. -/
theorem noConsecDupNodes_concat (h : List HistEntry) (en : HistEntry)
    (hd : noConsecDupNodes h = true)
    (hne : (h.getLast?).map (·.node) ≠ some en.node) :
    noConsecDupNodes (h ++ [en]) = true := by
  induction h with
  | nil => simp [noConsecDupNodes]
  | cons a t ih =>
    cases t with
    | nil =>
      have hne' : a.node ≠ en.node := by
        intro hh
        apply hne
        simp [hh]
      simp [noConsecDupNodes, hne']
    | cons b t2 =>
      simp only [noConsecDupNodes, Bool.and_eq_true] at hd
      have hlast : ((b :: t2).getLast?).map (·.node) ≠ some en.node := by
        rwa [List.getLast?_cons_cons] at hne
      simp only [List.cons_append, noConsecDupNodes, Bool.and_eq_true]
      exact ⟨hd.1, ih hd.2 hlast⟩

/-- Missing metadata makes the projector fail without writing. -/
theorem updateMetaFromState_none (e : EngineState) (id actor : String) (s : ExecState)
    (hm : alistGet e.store.metas id = none) :
    updateMetaFromState e id actor s = (e, .error "Missing meta") := by
  unfold updateMetaFromState
  rw [hm]

/-- Full characterization of a successful metadata projection: it puts a
single metadata record whose `status` is copied from the state, whose
`last_node` is the state's, whose history either stays or gains one entry
for a genuinely new node, and whose last history node is the state's
`last_node`. -/
theorem updateMetaFromState_spec (e : EngineState) (id actor : String) (s : ExecState)
    (m : InstanceMeta) (ln : String)
    (hm : alistGet e.store.metas id = some m) (hln : s.meta.last_node = some ln) :
    ∃ (M : InstanceMeta) (c : Nat),
      updateMetaFromState e id actor s = ({ store := putMeta e.store M, clock := c }, .ok M) ∧
      M.instance_id = m.instance_id ∧
      M.status = s.meta.status ∧
      M.last_node = some ln ∧
      (M.steps_history.getLast?).map (·.node) = some ln ∧
      (M.steps_history = m.steps_history ∨
        (M.steps_history = m.steps_history ++ [⟨e.clock, ln, actor, s.meta.status⟩] ∧
          (m.steps_history.getLast?).map (·.node) ≠ some ln)) := by
  unfold updateMetaFromState
  rw [hm, hln]
  dsimp only
  cases hse : s.meta.end_time <;> cases hss : s.meta.start_time <;> cases hms : m.start_time <;>
    dsimp only <;>
    split
  all_goals rename_i hcond
  all_goals first
  | (refine ⟨_, _, rfl, rfl, rfl, rfl, ?_, Or.inr ⟨rfl, ?_⟩⟩
     · simp [List.getLast?_concat]
     · intro hh
       exact hcond (by rw [hh]))
  | (refine ⟨_, _, rfl, rfl, rfl, rfl, ?_, Or.inl rfl⟩
     simp only [ne_eq, not_not] at hcond
     rw [← hcond])

/-- A present-but-unmatched `validate` value makes the traversal stop at
`Validate Request` without pausing: the guard chooses `END` and the state
comes back with only the defaults and `last_node` touched. -/
theorem runValidate_unmatched (s : ExecState) (c : Nat) (v : Value)
    (hv : bagGet s.bag "validate" = some v)
    (hy : v ≠ .vStr "yes") (hn : v ≠ .vStr "no") :
    graphInvoke s c =
      .done (withLastNode (ensure_defaults s c).1 "Validate Request") (ensure_defaults s c).2 := by
  cases hst : s.meta.start_time with
  | none =>
    simp [graphInvoke, runValidate, validate_request, validateGuard, ensure_defaults, withLastNode,
      hst, bagGet, hv, hy, hn] at hv ⊢
    simp [hv, hy, hn]
  | some t =>
    simp [graphInvoke, runValidate, validate_request, validateGuard, ensure_defaults, withLastNode,
      hst, bagGet, hv, hy, hn] at hv ⊢
    simp [hv, hy, hn]

theorem ensure_defaults_status (s : ExecState) (c : Nat) :
    ((ensure_defaults s c).1).meta.status = s.meta.status := by
  unfold ensure_defaults
  cases s.meta.start_time <;> rfl

theorem ensure_defaults_bag (s : ExecState) (c : Nat) :
    ((ensure_defaults s c).1).bag = s.bag := by
  unfold ensure_defaults
  cases s.meta.start_time <;> rfl

theorem C4_unmatched_guard_stalls_in_progress (e : EngineState) (id actor : String)
    (s : ExecState) (m : InstanceMeta) (v : Value)
    (hm : alistGet e.store.metas id = some m)
    (hmi : m.instance_id = id)
    (hs : s.meta.status = "in_progress")
    (hv : bagGet s.bag "validate" = some v)
    (hy : v ≠ .vStr "yes") (hn : v ≠ .vStr "no") :
    (engineRun e id s actor).2 = .ok (.inProgressS "Validate Request" id) ∧
    (get_meta (engineRun e id s actor).1 id).map (·.status) = some "in_progress" ∧
    (history (engineRun e id s actor).1 id).map (·.event) =
      (history e id).map (·.event) ++ ["progressed"] := by
  have hrun := runValidate_unmatched s e.clock v hv hy hn
  set s1 := withLastNode (ensure_defaults s e.clock).1 "Validate Request" with hs1def
  have hln : s1.meta.last_node = some "Validate Request" := rfl
  have hstat : s1.meta.status = "in_progress" := by
    show ((ensure_defaults s e.clock).1).meta.status = "in_progress"
    rw [ensure_defaults_status]
    exact hs
  have hdef : defaultLastNode s1 = s1 := rfl
  unfold engineRun
  rw [hrun]
  dsimp only
  rw [hdef]
  obtain ⟨M, cM, hupd, hMi, hMs, hMln, hMlast, hMhist⟩ :=
    updateMetaFromState_spec
      { store := putState e.store id s1, clock := (ensure_defaults s e.clock).2 }
      id actor s1 m "Validate Request" hm hln
  rw [hupd]
  dsimp only
  rw [hln]
  simp only [Option.getD_some]
  rw [hstat]
  rw [if_neg (by decide), if_neg (by decide)]
  have hkey : M.instance_id = id := hMi.trans hmi
  have hget2 : alistGet
      (appendEvent
        { store := putMeta
            (putMeta (putState e.store id s1) M)
            { M with status := "in_progress" },
          clock := cM }
        id "progressed" (some "Validate Request") "in_progress" (some actor)
        .empty).store.metas id = some ({ M with status := "in_progress" } : InstanceMeta) := by
    rw [appendEvent_metas]
    show alistGet (alistPut (putMeta (putState e.store id s1) M).metas M.instance_id _) id = _
    rw [hkey]
    exact alistGet_alistPut_self _ _ _
  obtain ⟨M₂, cM₂, hupd₂, hM₂i, hM₂s, hM₂ln, hM₂last, hM₂hist⟩ :=
    updateMetaFromState_spec _ id actor s1 ({ M with status := "in_progress" }) "Validate Request"
      hget2 hln
  rw [hupd₂]
  dsimp only
  have hkey₂ : M₂.instance_id = id := hM₂i.trans hkey
  refine ⟨rfl, ?_, ?_⟩
  · show (alistGet (alistPut _ M₂.instance_id M₂) id).map _ = _
    rw [hkey₂, alistGet_alistPut_self]
    show some M₂.status = some "in_progress"
    rw [hM₂s, hstat]
  · show ((alistGet (putMeta _ M₂).events id).getD []).map _ = _
    dsimp only [putMeta, putState, appendEvent]
    rw [alistGet_alistPut_self]
    simp [history, List.map_append]


/-- Concrete metadata record for the C4 witness. -/
def c4Meta : InstanceMeta :=
  { instance_id := "k", customer_id := "C", workflow_name := "ClaimWorkflow", started_by := "u" }

/-- Concrete engine state for the C4 witness. -/
def c4Engine : EngineState := { store := { metas := [("k", c4Meta)] }, clock := 0 }

/-- Concrete execution state for the C4 witness: `validate` is present but
set to `"maybe"`, matching neither guard branch. -/
def c4State : ExecState :=
  { instance_id := "k", customer_id := "C", workflow_name := "ClaimWorkflow",
    bag := [("validate", .vStr "maybe")],
    meta := { status := "in_progress", start_time := some 0 } }

/-- Witness for C4 at the concrete stuck input `validate = "maybe"`. -/
theorem C4_unmatched_guard_stalls_in_progress_witness :
    alistGet c4Engine.store.metas "k" = some c4Meta ∧
    c4Meta.instance_id = "k" ∧
    c4State.meta.status = "in_progress" ∧
    bagGet c4State.bag "validate" = some (.vStr "maybe") ∧
    (engineRun c4Engine "k" c4State "u").2 = .ok (.inProgressS "Validate Request" "k") ∧
    (get_meta (engineRun c4Engine "k" c4State "u").1 "k").map (·.status) = some "in_progress" := by
  refine ⟨rfl, rfl, rfl, rfl, ?_, ?_⟩
  · exact (C4_unmatched_guard_stalls_in_progress c4Engine "k" "u" c4State c4Meta (.vStr "maybe")
      rfl rfl rfl rfl (by decide) (by decide)).1
  · exact (C4_unmatched_guard_stalls_in_progress c4Engine "k" "u" c4State c4Meta (.vStr "maybe")
      rfl rfl rfl rfl (by decide) (by decide)).2.1

/-! ### Listing: filters and sort order -/

/-- Spec-side filter, following the amended claim's words: any
combination of customer_id, status, started_by, workflow_name, all
optional, each supplied truthy (non-empty) filter exact-match
AND-combined, a supplied empty-string filter ignored like an absent
one. -/
def specFilters (m : InstanceMeta)
    (customer_id status started_by workflow_name : Option String) : Bool :=
  customer_id.all (fun c => c.isEmpty || m.customer_id == c) &&
  status.all (fun st => st.isEmpty || m.status == st) &&
  started_by.all (fun sb => sb.isEmpty || m.started_by == sb) &&
  workflow_name.all (fun w => w.isEmpty || m.workflow_name == w)

/-- Spec-side description of the match set: the indexed instances'
metadata records that pass every supplied truthy filter. -/
def specMatching (e : EngineState)
    (customer_id status started_by workflow_name : Option String) : List InstanceMeta :=
  (e.store.index.filterMap (fun iid => alistGet e.store.metas iid)).filter
    (fun m => specFilters m customer_id status started_by workflow_name)

theorem matchesFilters_eq_specFilters (m : InstanceMeta)
    (cf sf bf wf : Option String) :
    matchesFilters m cf sf bf wf = specFilters m cf sf bf wf := by
  cases cf <;> cases sf <;> cases bf <;> cases wf <;>
    (first
      | rfl
      | (rw [Bool.eq_iff_iff]
         simp only [matchesFilters, specFilters, Option.all, Bool.and_eq_true,
           Bool.or_eq_true]
         tauto))

theorem list_instances_filterMap (e : EngineState) (cf sf bf wf : Option String) :
    (e.store.index.filterMap (fun iid =>
      match alistGet e.store.metas iid with
      | none => none
      | some m => if matchesFilters m cf sf bf wf then some m else none)) =
    specMatching e cf sf bf wf := by
  unfold specMatching
  induction e.store.index with
  | nil => simp
  | cons iid t ih =>
    cases hm : alistGet e.store.metas iid with
    | none => simpa [List.filterMap_cons, hm] using ih
    | some m =>
      by_cases hf : matchesFilters m cf sf bf wf
      · have hf2 : specFilters m cf sf bf wf = true := by
          rw [← matchesFilters_eq_specFilters]; exact hf
        simp [List.filterMap_cons, hm, hf, hf2, List.filter_cons, ih]
      · have hf2 : ¬ specFilters m cf sf bf wf = true := by
          rw [← matchesFilters_eq_specFilters]; exact hf
        simp [List.filterMap_cons, hm, hf, hf2, List.filter_cons, ih]

theorem keyLe_trans (x y z : Option Nat) (h₁ : keyLe x y = true) (h₂ : keyLe y z = true) :
    keyLe x z = true := by
  cases x <;> cases y <;> cases z <;> simp_all [keyLe]
  omega

theorem keyLe_total (x y : Option Nat) : (keyLe x y || keyLe y x) = true := by
  cases x <;> cases y <;> simp_all [keyLe]
  omega

theorem sortKey_eq_none_iff (m : InstanceMeta) : sortKey m = none ↔ m.steps_history = [] := by
  cases h : m.steps_history with
  | nil => simp [sortKey, h]
  | cons a t => simp [sortKey, h]


/-- C9 (amended): `list_instances` returns, as a permutation, exactly
the indexed metadata records passing every supplied truthy filter
(exact-match conjunction; a supplied empty-string filter is ignored like
an absent one, because the source tests the filter value's truthiness
before comparing), and the result is sorted descending by the timestamp
of each instance's most recent `steps_history` entry, with no-history
instances last. -/
theorem C9_list_instances_filter_sort (e : EngineState) (cf sf bf wf : Option String) :
    (list_instances e cf sf bf wf).Perm (specMatching e cf sf bf wf) ∧
    (list_instances e cf sf bf wf).Pairwise (fun a b => keyLe (sortKey b) (sortKey a) = true) ∧
    (list_instances e cf sf bf wf).Pairwise
      (fun a b => a.steps_history = [] → b.steps_history = []) := by
  have hsorted := @List.sorted_mergeSort InstanceMeta
    (fun a b => keyLe (sortKey b) (sortKey a))
    (fun a b c hab hbc => keyLe_trans _ _ _ hbc hab)
    (fun a b => keyLe_total (sortKey b) (sortKey a))
    (e.store.index.filterMap (fun iid =>
      match alistGet e.store.metas iid with
      | none => none
      | some m => if matchesFilters m cf sf bf wf then some m else none))
  have hrw : list_instances e cf sf bf wf =
      (e.store.index.filterMap (fun iid =>
        match alistGet e.store.metas iid with
        | none => none
        | some m => if matchesFilters m cf sf bf wf then some m else none)).mergeSort
        (fun a b => keyLe (sortKey b) (sortKey a)) := rfl
  rw [hrw]
  refine ⟨?_, hsorted, ?_⟩
  · rw [list_instances_filterMap e cf sf bf wf]
    exact List.mergeSort_perm _ _
  · refine List.Pairwise.imp ?_ hsorted
    intro a b hle ha
    have hka : sortKey a = none := (sortKey_eq_none_iff a).2 ha
    rw [hka] at hle
    cases hkb : sortKey b with
    | none => exact (sortKey_eq_none_iff b).1 hkb
    | some n => rw [hkb] at hle; simp [keyLe] at hle

/-- Concrete instance metadata for the C9 counterexample (status is the
default `"in_progress"`). -/
def c9Meta : InstanceMeta :=
  { instance_id := "x", customer_id := "C", workflow_name := "ClaimWorkflow", started_by := "u" }

/-- Engine holding that one indexed instance. -/
def c9Engine : EngineState := { store := { metas := [("x", c9Meta)], index := ["x"] } }

/-- C9 counterexample: a supplied `status` filter holding the empty
string is not applied as an exact match — the instance whose status is
`"in_progress"` is still returned, because the source tests the filter
value's truthiness (`if status and ...`) before comparing.  Under the
original claim's exact-match-conjunction reading the result would have
been empty. -/
theorem C9_empty_string_filter_ignored :
    list_instances c9Engine none (some "") none none = [c9Meta] ∧
    c9Meta.status ≠ "" := by
  constructor
  · show List.mergeSort [c9Meta] _ = [c9Meta]
    exact List.mergeSort_singleton c9Meta
  · decide

/-- `defaultLastNode` always yields a set `last_node`. -/
theorem defaultLastNode_some (s : ExecState) :
    ∃ ln, (defaultLastNode s).meta.last_node = some ln := by
  cases h : s.meta.last_node with
  | none => exact ⟨"Validate Request", by simp [defaultLastNode, h]⟩
  | some x => exact ⟨x, by simp [defaultLastNode, h]⟩

/-- `putMeta` never erases a metadata binding. -/
theorem alistGet_putMeta_isSome (st : Store) (N : InstanceMeta) (id : String)
    (h : (alistGet st.metas id).isSome = true) :
    (alistGet (putMeta st N).metas id).isSome = true := by
  unfold putMeta
  by_cases hk : id = N.instance_id
  · subst hk
    rw [alistGet_alistPut_self]
    rfl
  · rw [alistGet_alistPut_ne _ _ _ _ hk]
    exact h

/-- After the final `putMeta` of a run branch, the instance's event log is
the pre-branch log plus the one event the branch appended. -/
theorem history_after_tail (e Epre : EngineState) (id evName : String) (node : Option String)
    (status : String) (actor : Option String) (data : EventData) (M₂ : InstanceMeta) (c₂ : Nat)
    (hpre : Epre.store.events = e.store.events) :
    (history { store := putMeta (appendEvent Epre id evName node status actor data).store M₂,
               clock := c₂ } id).map (·.event) =
      (history e id).map (·.event) ++ [evName] := by
  simp [history, putMeta, appendEvent, alistGet_alistPut_self, hpre]

/-- Shape of a successful metadata projection, consumed through the
equation `split at` generates: the new store is one `putMeta` of the
returned record over the old store, and the returned record relates to
the previously stored one as the projector prescribes. -/
theorem updateMetaFromState_ok_spec (E : EngineState) (id actor : String) (s : ExecState)
    (E' : EngineState) (M : InstanceMeta)
    (h : updateMetaFromState E id actor s = (E', .ok M)) :
    E'.store = putMeta E.store M ∧
    ∃ m, alistGet E.store.metas id = some m ∧
      M.instance_id = m.instance_id ∧
      M.status = s.meta.status ∧
      (M.steps_history = m.steps_history ∨
        ∃ en : HistEntry, M.steps_history = m.steps_history ++ [en] ∧
          (m.steps_history.getLast?).map (·.node) ≠ some en.node) := by
  unfold updateMetaFromState at h
  cases hm : alistGet E.store.metas id <;> rw [hm] at h
  · exact absurd h (by simp)
  · rename_i m
    dsimp only at h
    cases hln : s.meta.last_node
    all_goals rw [hln] at h
    all_goals cases hse : s.meta.end_time
    all_goals rw [hse] at h
    all_goals cases hss : s.meta.start_time
    all_goals rw [hss] at h
    all_goals cases hms : m.start_time
    all_goals rw [hms] at h
    all_goals dsimp only at h
    all_goals try split at h
    all_goals
      injection h with h1 h2
      injection h2 with h2
      subst h2
      subst h1
    all_goals refine ⟨rfl, m, rfl, rfl, rfl, ?_⟩
    all_goals first
      | exact Or.inl rfl
      | (rename_i hcond
         refine Or.inr ⟨_, rfl, ?_⟩
         intro hh
         exact hcond (by rw [hh]))

/-- Every successful run appends exactly one outcome event for the
instance: `paused`, `completed`, `aborted` or `progressed`. -/
theorem engineRun_ok_events (e : EngineState) (id : String) (s : ExecState) (actor : String)
    (e' : EngineState) (sum : Summary)
    (h : engineRun e id s actor = (e', .ok sum)) :
    ∃ ev : String,
      (history e' id).map (·.event) = (history e id).map (·.event) ++ [ev] ∧
      (ev = "paused" ∨ ev = "completed" ∨ ev = "aborted" ∨ ev = "progressed") := by
  unfold engineRun at h
  cases hg : graphInvoke s e.clock <;> rw [hg] at h <;> dsimp only at h
  case paused s₀ c p =>
    split at h
    · simp at h
    · rename_i e₁ M₁ heq₁
      obtain ⟨hst₁, m₁, hm₁, _, _, _⟩ := updateMetaFromState_ok_spec _ _ _ _ _ _ heq₁
      by_cases hov : M₁.status ≠ "completed" ∧ M₁.status ≠ "aborted"
      · rw [if_pos hov] at h
        dsimp only at h
        split at h
        · simp at h
        · rename_i e₂ M₂ heq₂
          obtain ⟨hst₂, m₂, hm₂, _, _, _⟩ := updateMetaFromState_ok_spec _ _ _ _ _ _ heq₂
          injection h with h1 h2
          subst h1
          refine ⟨"paused", ?_, Or.inl rfl⟩
          simp only [history, putMeta_events]
          rw [hst₂]
          simp only [putMeta_events, appendEvent_events_self]
          try dsimp only
          try simp only [putMeta_events]
          rw [hst₁]
          simp only [putMeta_events, putState_events]
          simp [List.map_append]
      · rw [if_neg hov] at h
        dsimp only at h
        split at h
        · simp at h
        · rename_i e₂ M₂ heq₂
          obtain ⟨hst₂, m₂, hm₂, _, _, _⟩ := updateMetaFromState_ok_spec _ _ _ _ _ _ heq₂
          injection h with h1 h2
          subst h1
          refine ⟨"paused", ?_, Or.inl rfl⟩
          simp only [history, putMeta_events]
          rw [hst₂]
          simp only [putMeta_events, appendEvent_events_self]
          try dsimp only
          try simp only [putMeta_events]
          rw [hst₁]
          simp only [putMeta_events, putState_events]
          simp [List.map_append]
  case done r₀ c =>
    split at h
    · simp at h
    · rename_i e₁ M₁ heq₁
      obtain ⟨hst₁, m₁, hm₁, _, _, _⟩ := updateMetaFromState_ok_spec _ _ _ _ _ _ heq₁
      split at h
      · -- completed
        split at h
        · simp at h
        · rename_i e₂ M₂ heq₂
          obtain ⟨hst₂, m₂, hm₂, _, _, _⟩ := updateMetaFromState_ok_spec _ _ _ _ _ _ heq₂
          injection h with h1 h2
          subst h1
          refine ⟨"completed", ?_, Or.inr (Or.inl rfl)⟩
          simp only [history, putMeta_events]
          rw [hst₂]
          simp only [putMeta_events, appendEvent_events_self]
          try dsimp only
          try simp only [putMeta_events]
          rw [hst₁]
          simp only [putMeta_events, putState_events]
          simp [List.map_append]
      · split at h
        · -- aborted
          split at h
          · simp at h
          · rename_i e₂ M₂ heq₂
            obtain ⟨hst₂, m₂, hm₂, _, _, _⟩ := updateMetaFromState_ok_spec _ _ _ _ _ _ heq₂
            injection h with h1 h2
            subst h1
            refine ⟨"aborted", ?_, Or.inr (Or.inr (Or.inl rfl))⟩
            simp only [history, putMeta_events]
            rw [hst₂]
            simp only [putMeta_events, appendEvent_events_self]
            try dsimp only
            try simp only [putMeta_events]
            rw [hst₁]
            simp only [putMeta_events, putState_events]
            simp [List.map_append]
        · -- progressed
          split at h
          · simp at h
          · rename_i e₂ M₂ heq₂
            obtain ⟨hst₂, m₂, hm₂, _, _, _⟩ := updateMetaFromState_ok_spec _ _ _ _ _ _ heq₂
            injection h with h1 h2
            subst h1
            refine ⟨"progressed", ?_, Or.inr (Or.inr (Or.inr rfl))⟩
            simp only [history, putMeta_events]
            rw [hst₂]
            simp only [putMeta_events, appendEvent_events_self]
            try dsimp only
            try simp only [putMeta_events]
            rw [hst₁]
            simp only [putMeta_events, putState_events]
            simp [List.map_append]

/-- `_add_to_index` leaves the event namespace alone. -/
theorem addToIndex_events (st : Store) (id : String) :
    (addToIndex st id).events = st.events := by
  unfold addToIndex
  split <;> rfl

/-- C10: every `start` call on a fresh id and every successful `resume`
call appends exactly two events to the instance's log: `start` appends
`created` then one outcome event, and `resume` appends `resume_command`
then one outcome event, where the outcome is one of `paused`,
`completed`, `aborted`, `progressed`. -/
theorem C10_two_events_per_call :
    (∀ e id customer_id started_by e' sum,
      alistGet e.store.events id = none →
      start e id customer_id started_by = (e', .ok sum) →
      ∃ ev, (history e' id).map (·.event) = ["created", ev] ∧
        (ev = "paused" ∨ ev = "completed" ∨ ev = "aborted" ∨ ev = "progressed")) ∧
    (∀ e id actor updates e' sum,
      resume e id actor updates = (e', .ok sum) →
      ∃ ev, (history e' id).map (·.event) =
          (history e id).map (·.event) ++ ["resume_command", ev] ∧
        (ev = "paused" ∨ ev = "completed" ∨ ev = "aborted" ∨ ev = "progressed")) := by
  constructor
  · intro e id customer_id started_by e' sum hfresh hcall
    unfold start at hcall
    dsimp only at hcall
    obtain ⟨ev, hev, hmem⟩ := engineRun_ok_events _ _ _ _ _ _ hcall
    refine ⟨ev, ?_, hmem⟩
    rw [hev, history_appendEvent_self]
    simp [history, addToIndex_events, putMeta_events, putState_events, hfresh]
  · intro e id actor updates e' sum hcall
    unfold resume at hcall
    cases hst : alistGet e.store.states id <;> rw [hst] at hcall
    · simp at hcall
    · rename_i state
      dsimp only at hcall
      obtain ⟨ev, hev, hmem⟩ := engineRun_ok_events _ _ _ _ _ _ hcall
      refine ⟨ev, ?_, hmem⟩
      rw [hev, history_appendEvent_self]
      simp [history, putState_events]

/-- Witness for C10: the first two calls of the cancel scenario. -/
theorem C10_two_events_per_call_witness :
    alistGet engineInit.store.events "i1" = none ∧
    (∃ ev, (history cancelTrace1.1 "i1").map (·.event) = ["created", ev] ∧
      (ev = "paused" ∨ ev = "completed" ∨ ev = "aborted" ∨ ev = "progressed")) ∧
    (∃ ev, (history cancelTrace2.1 "i1").map (·.event) =
        (history cancelTrace1.1 "i1").map (·.event) ++ ["resume_command", ev] ∧
      (ev = "paused" ∨ ev = "completed" ∨ ev = "aborted" ∨ ev = "progressed")) := by
  refine ⟨rfl, ?_, ?_⟩
  · exact C10_two_events_per_call.1 engineInit "i1" "C1" "u1" cancelTrace1.1
      (.pausedS "Validate request? (yes/no)" "i1") rfl rfl
  · exact C10_two_events_per_call.2 cancelTrace1.1 "i1" "u2" [("validate", .vStr "yes")]
      cancelTrace2.1 (.pausedS "Provide claim details" "i1") rfl

/-! ### History invariants across an instance's life -/

/-- History recorded for an id in one store (empty when no metadata). -/
def histOfS (st : Store) (id : String) : List HistEntry :=
  ((alistGet st.metas id).map (·.steps_history)).getD []

/-- Every metadata record sits under its own instance_id as key. -/
def KeyInvS (st : Store) : Prop :=
  ∀ id m, alistGet st.metas id = some m → m.instance_id = id

/-- Every stored history is free of consecutive duplicate nodes. -/
def MetasInvS (st : Store) : Prop :=
  ∀ id m, alistGet st.metas id = some m → noConsecDupNodes m.steps_history = true

/-- Every stored history of `a` is a prefix of the one in `b`. -/
def StoreExtends (a b : Store) : Prop := ∀ id, HistExtends (histOfS a id) (histOfS b id)

theorem storeExtends_refl (st : Store) : StoreExtends st st := fun _ => histExtends_refl _

theorem storeExtends_trans {a b c : Store} (h₁ : StoreExtends a b) (h₂ : StoreExtends b c) :
    StoreExtends a c := fun id => histExtends_trans (h₁ id) (h₂ id)

/-- One `putMeta` preserves both store invariants when the written record
is itself well-formed. -/
theorem putMeta_inv (st : Store) (N : InstanceMeta)
    (hdup : noConsecDupNodes N.steps_history = true)
    (hKey : KeyInvS st) (hInv : MetasInvS st) :
    KeyInvS (putMeta st N) ∧ MetasInvS (putMeta st N) := by
  constructor
  · intro k m hk
    by_cases hkk : k = N.instance_id
    · subst hkk
      rw [show (putMeta st N).metas = alistPut st.metas N.instance_id N from rfl,
        alistGet_alistPut_self] at hk
      cases hk
      rfl
    · rw [show (putMeta st N).metas = alistPut st.metas N.instance_id N from rfl,
        alistGet_alistPut_ne _ _ _ _ hkk] at hk
      exact hKey k m hk
  · intro k m hk
    by_cases hkk : k = N.instance_id
    · subst hkk
      rw [show (putMeta st N).metas = alistPut st.metas N.instance_id N from rfl,
        alistGet_alistPut_self] at hk
      cases hk
      exact hdup
    · rw [show (putMeta st N).metas = alistPut st.metas N.instance_id N from rfl,
        alistGet_alistPut_ne _ _ _ _ hkk] at hk
      exact hInv k m hk

/-- One `putMeta` only extends histories when the written record extends
the record previously stored under its key. -/
theorem putMeta_extends (st : Store) (N : InstanceMeta)
    (hext : HistExtends (histOfS st N.instance_id) N.steps_history) :
    StoreExtends st (putMeta st N) := by
  intro k
  by_cases hkk : k = N.instance_id
  · subst hkk
    unfold histOfS
    rw [show (putMeta st N).metas = alistPut st.metas N.instance_id N from rfl,
      alistGet_alistPut_self]
    exact hext
  · unfold histOfS
    rw [show (putMeta st N).metas = alistPut st.metas N.instance_id N from rfl,
      alistGet_alistPut_ne _ _ _ _ hkk]
    exact histExtends_refl _

/-- A successful projection against a well-formed prior store: the
result store is one well-formed `putMeta`, the returned record is keyed
by the run's id, and every history only extends. -/
theorem updateMeta_ok_good (E : EngineState) (id actor : String) (s : ExecState)
    (E' : EngineState) (M : InstanceMeta)
    (h : updateMetaFromState E id actor s = (E', .ok M))
    (hKey : KeyInvS E.store) (hInv : MetasInvS E.store) :
    KeyInvS E'.store ∧ MetasInvS E'.store ∧ StoreExtends E.store E'.store ∧
    M.instance_id = id ∧ noConsecDupNodes M.steps_history = true ∧
    alistGet E'.store.metas id = some M := by
  obtain ⟨hst, m, hm, hMi, hMs, hOr⟩ := updateMetaFromState_ok_spec _ _ _ _ _ _ h
  have hmid : m.instance_id = id := hKey id m hm
  have hMid : M.instance_id = id := hMi.trans hmid
  have hdup : noConsecDupNodes M.steps_history = true := by
    rcases hOr with heq | ⟨en, heq, hne⟩
    · rw [heq]
      exact hInv id m hm
    · rw [heq]
      exact noConsecDupNodes_concat _ _ (hInv id m hm) hne
  have hext : HistExtends (histOfS E.store M.instance_id) M.steps_history := by
    rw [hMid]
    unfold histOfS
    rw [hm]
    rcases hOr with heq | ⟨en, heq, hne⟩
    · rw [heq]
      exact histExtends_refl _
    · exact ⟨[en], heq⟩
  obtain ⟨hK, hI⟩ := putMeta_inv E.store M hdup hKey hInv
  have hX := putMeta_extends E.store M hext
  rw [hst]
  refine ⟨hK, hI, hX, hMid, hdup, ?_⟩
  subst hMid
  exact alistGet_alistPut_self _ _ _

/-- Re-writing a record with the same history (a pure status override)
is invariant- and extension-preserving. -/
theorem putMeta_samehist_good (st : Store) (N Np : InstanceMeta)
    (hN : alistGet st.metas Np.instance_id = some N)
    (hhist : Np.steps_history = N.steps_history)
    (hKey : KeyInvS st) (hInv : MetasInvS st) :
    KeyInvS (putMeta st Np) ∧ MetasInvS (putMeta st Np) ∧ StoreExtends st (putMeta st Np) ∧
    alistGet (putMeta st Np).metas Np.instance_id = some Np := by
  have hdup : noConsecDupNodes Np.steps_history = true := by
    rw [hhist]
    exact hInv _ N hN
  obtain ⟨hK, hI⟩ := putMeta_inv st Np hdup hKey hInv
  have hX : StoreExtends st (putMeta st Np) := by
    refine putMeta_extends st Np ?_
    unfold histOfS
    rw [hN, hhist]
    exact histExtends_refl _
  exact ⟨hK, hI, hX, alistGet_alistPut_self _ _ _⟩

/-- A failed projection leaves the engine untouched. -/
theorem updateMetaFromState_ok_of_some (E : EngineState) (id actor : String) (s : ExecState)
    (m : InstanceMeta) (hm : alistGet E.store.metas id = some m) :
    ∃ E₂ M, updateMetaFromState E id actor s = (E₂, .ok M) := by
  unfold updateMetaFromState
  rw [hm]
  dsimp only
  cases hln : s.meta.last_node <;> cases hse : s.meta.end_time <;>
    cases hss : s.meta.start_time <;> cases hms : m.start_time <;> dsimp only <;>
    (try split) <;> exact ⟨_, _, rfl⟩

theorem updateMetaFromState_error_eq (E : EngineState) (id actor : String) (s : ExecState)
    (E' : EngineState) (msg : String)
    (h : updateMetaFromState E id actor s = (E', .error msg)) : E' = E := by
  cases hm : alistGet E.store.metas id
  · rw [updateMetaFromState_none E id actor s hm] at h
    injection h with h1 _
    exact h1.symm
  · obtain ⟨E₂, M, hok⟩ := updateMetaFromState_ok_of_some E id actor s _ hm
    rw [hok] at h
    injection h with _ h2
    exact absurd h2 (by simp)

/-- The second projection of `update_and_return` plus its redundant
`putMeta` preserve the invariants and only extend histories. -/
theorem secondUpdate_good (EA : EngineState) (id actor : String) (s₁ : ExecState)
    (e₂ : EngineState) (M₂ : InstanceMeta)
    (heq₂ : updateMetaFromState EA id actor s₁ = (e₂, .ok M₂))
    (hK : KeyInvS EA.store) (hI : MetasInvS EA.store) :
    KeyInvS (putMeta e₂.store M₂) ∧ MetasInvS (putMeta e₂.store M₂) ∧
    StoreExtends EA.store (putMeta e₂.store M₂) := by
  obtain ⟨hK₂, hI₂, hX₂, hMid₂, hdup₂, hget₂⟩ := updateMeta_ok_good _ _ _ _ _ _ heq₂ hK hI
  obtain ⟨hK₃, hI₃, hX₃, _⟩ :=
    putMeta_samehist_good e₂.store M₂ M₂ (by rw [hMid₂]; exact hget₂) rfl hK₂ hI₂
  exact ⟨hK₃, hI₃, storeExtends_trans hX₂ hX₃⟩

/-- One full run preserves both metadata invariants and only ever extends
`steps_history`, whatever the outcome. -/
theorem engineRun_good (e : EngineState) (id : String) (s : ExecState) (actor : String)
    (e' : EngineState) (r : Except String Summary)
    (hrun : engineRun e id s actor = (e', r))
    (hKey : KeyInvS e.store) (hInv : MetasInvS e.store) :
    KeyInvS e'.store ∧ MetasInvS e'.store ∧ StoreExtends e.store e'.store := by
  unfold engineRun at hrun
  cases hg : graphInvoke s e.clock <;> rw [hg] at hrun <;> dsimp only at hrun
  case paused s₀ c p =>
    split at hrun
    · rename_i e₁ msg heq₁
      have he₁ := updateMetaFromState_error_eq _ _ _ _ _ _ heq₁
      injection hrun with h1 h2
      subst h1
      rw [he₁]
      exact ⟨hKey, hInv, fun k => histExtends_refl _⟩
    · rename_i e₁ M₁ heq₁
      obtain ⟨hK₁, hI₁, hX₁, hMid₁, hdup₁, hget₁⟩ := updateMeta_ok_good _ _ _ _ _ _ heq₁ hKey hInv
      by_cases hov : M₁.status ≠ "completed" ∧ M₁.status ≠ "aborted"
      · rw [if_pos hov] at hrun
        dsimp only at hrun
        obtain ⟨hK₂, hI₂, hX₂, hget₂⟩ :=
          putMeta_samehist_good e₁.store M₁ { M₁ with status := "paused" }
            (by rw [show ({ M₁ with status := "paused" } : InstanceMeta).instance_id = id from hMid₁]
                exact hget₁) rfl hK₁ hI₁
        split at hrun
        · rename_i e₂ msg heq₂
          have he₂ := updateMetaFromState_error_eq _ _ _ _ _ _ heq₂
          injection hrun with h1 h2
          subst h1
          rw [he₂]
          exact ⟨hK₂, hI₂, storeExtends_trans hX₁ hX₂⟩
        · rename_i e₂ M₂ heq₂
          obtain ⟨hK₄, hI₄, hX₄⟩ := secondUpdate_good _ _ _ _ _ _ heq₂ hK₂ hI₂
          injection hrun with h1 h2
          subst h1
          exact ⟨hK₄, hI₄, storeExtends_trans hX₁ (storeExtends_trans hX₂ hX₄)⟩
      · rw [if_neg hov] at hrun
        dsimp only at hrun
        split at hrun
        · rename_i e₂ msg heq₂
          have he₂ := updateMetaFromState_error_eq _ _ _ _ _ _ heq₂
          injection hrun with h1 h2
          subst h1
          rw [he₂]
          exact ⟨hK₁, hI₁, hX₁⟩
        · rename_i e₂ M₂ heq₂
          obtain ⟨hK₄, hI₄, hX₄⟩ := secondUpdate_good _ _ _ _ _ _ heq₂ hK₁ hI₁
          injection hrun with h1 h2
          subst h1
          exact ⟨hK₄, hI₄, storeExtends_trans hX₁ hX₄⟩
  case done r₀ c =>
    split at hrun
    · rename_i e₁ msg heq₁
      have he₁ := updateMetaFromState_error_eq _ _ _ _ _ _ heq₁
      injection hrun with h1 h2
      subst h1
      rw [he₁]
      exact ⟨hKey, hInv, fun k => histExtends_refl _⟩
    · rename_i e₁ M₁ heq₁
      obtain ⟨hK₁, hI₁, hX₁, hMid₁, hdup₁, hget₁⟩ := updateMeta_ok_good _ _ _ _ _ _ heq₁ hKey hInv
      split at hrun
      · -- completed
        obtain ⟨hK₂, hI₂, hX₂, hget₂⟩ :=
          putMeta_samehist_good e₁.store M₁ { M₁ with status := "completed" }
            (by rw [show ({ M₁ with status := "completed" } : InstanceMeta).instance_id = id from
                  hMid₁]
                exact hget₁) rfl hK₁ hI₁
        split at hrun
        · rename_i e₂ msg heq₂
          have he₂ := updateMetaFromState_error_eq _ _ _ _ _ _ heq₂
          injection hrun with h1 h2
          subst h1
          rw [he₂]
          exact ⟨hK₂, hI₂, storeExtends_trans hX₁ hX₂⟩
        · rename_i e₂ M₂ heq₂
          obtain ⟨hK₄, hI₄, hX₄⟩ := secondUpdate_good _ _ _ _ _ _ heq₂ hK₂ hI₂
          injection hrun with h1 h2
          subst h1
          exact ⟨hK₄, hI₄, storeExtends_trans hX₁ (storeExtends_trans hX₂ hX₄)⟩
      · split at hrun
        · -- aborted
          obtain ⟨hK₂, hI₂, hX₂, hget₂⟩ :=
            putMeta_samehist_good e₁.store M₁ { M₁ with status := "aborted" }
              (by rw [show ({ M₁ with status := "aborted" } : InstanceMeta).instance_id = id from
                    hMid₁]
                  exact hget₁) rfl hK₁ hI₁
          split at hrun
          · rename_i e₂ msg heq₂
            have he₂ := updateMetaFromState_error_eq _ _ _ _ _ _ heq₂
            injection hrun with h1 h2
            subst h1
            rw [he₂]
            exact ⟨hK₂, hI₂, storeExtends_trans hX₁ hX₂⟩
          · rename_i e₂ M₂ heq₂
            obtain ⟨hK₄, hI₄, hX₄⟩ := secondUpdate_good _ _ _ _ _ _ heq₂ hK₂ hI₂
            injection hrun with h1 h2
            subst h1
            exact ⟨hK₄, hI₄, storeExtends_trans hX₁ (storeExtends_trans hX₂ hX₄)⟩
        · -- progressed
          obtain ⟨hK₂, hI₂, hX₂, hget₂⟩ :=
            putMeta_samehist_good e₁.store M₁ { M₁ with status := "in_progress" }
              (by rw [show ({ M₁ with status := "in_progress" } : InstanceMeta).instance_id = id
                    from hMid₁]
                  exact hget₁) rfl hK₁ hI₁
          split at hrun
          · rename_i e₂ msg heq₂
            have he₂ := updateMetaFromState_error_eq _ _ _ _ _ _ heq₂
            injection hrun with h1 h2
            subst h1
            rw [he₂]
            exact ⟨hK₂, hI₂, storeExtends_trans hX₁ hX₂⟩
          · rename_i e₂ M₂ heq₂
            obtain ⟨hK₄, hI₄, hX₄⟩ := secondUpdate_good _ _ _ _ _ _ heq₂ hK₂ hI₂
            injection hrun with h1 h2
            subst h1
            exact ⟨hK₄, hI₄, storeExtends_trans hX₁ (storeExtends_trans hX₂ hX₄)⟩

/-- `_add_to_index` leaves the metadata namespace alone. -/
theorem addToIndex_metas (st : Store) (id : String) :
    (addToIndex st id).metas = st.metas := by
  unfold addToIndex
  split <;> rfl

/-- A `start` call preserves the metadata invariants, and when the drawn
id is fresh (as a uuid4 is) it only extends every history. -/
theorem start_good (e : EngineState) (id cid sb : String) (e' : EngineState)
    (r : Except String Summary) (hcall : start e id cid sb = (e', r))
    (hKey : KeyInvS e.store) (hInv : MetasInvS e.store) :
    KeyInvS e'.store ∧ MetasInvS e'.store ∧
    (alistGet e.store.metas id = none → StoreExtends e.store e'.store) := by
  unfold start at hcall
  dsimp only at hcall
  obtain ⟨hK, hI, hX⟩ := engineRun_good _ _ _ _ _ _ hcall
    (by
      intro k m hk
      simp only [appendEvent, addToIndex_metas, putMeta, putState] at hk
      by_cases hkk : k = id
      · subst hkk
        rw [alistGet_alistPut_self] at hk
        cases hk
        rfl
      · rw [alistGet_alistPut_ne _ _ _ _ hkk] at hk
        exact hKey k m hk)
    (by
      intro k m hk
      simp only [appendEvent, addToIndex_metas, putMeta, putState] at hk
      by_cases hkk : k = id
      · subst hkk
        rw [alistGet_alistPut_self] at hk
        cases hk
        rfl
      · rw [alistGet_alistPut_ne _ _ _ _ hkk] at hk
        exact hInv k m hk)
  refine ⟨hK, hI, fun hfresh => storeExtends_trans ?_ hX⟩
  intro k
  unfold histOfS
  simp only [appendEvent, addToIndex_metas, putMeta, putState]
  by_cases hkk : k = id
  · subst hkk
    rw [hfresh, alistGet_alistPut_self]
    exact histExtends_nil _
  · rw [alistGet_alistPut_ne _ _ _ _ hkk]
    exact histExtends_refl _

/-- A `resume` call preserves the metadata invariants and only extends
histories, succeeding or not. -/
theorem resume_good (e : EngineState) (id actor : String) (us : List (String × Value))
    (e' : EngineState) (r : Except String Summary)
    (hcall : resume e id actor us = (e', r))
    (hKey : KeyInvS e.store) (hInv : MetasInvS e.store) :
    KeyInvS e'.store ∧ MetasInvS e'.store ∧ StoreExtends e.store e'.store := by
  unfold resume at hcall
  cases hst : alistGet e.store.states id <;> rw [hst] at hcall
  · injection hcall with h1 h2
    subst h1
    exact ⟨hKey, hInv, storeExtends_refl _⟩
  · dsimp only at hcall
    obtain ⟨hK, hI, hX⟩ := engineRun_good _ _ _ _ _ _ hcall hKey hInv
    exact ⟨hK, hI, storeExtends_trans (fun k => histExtends_refl _) hX⟩

/-- One external call against the engine: `start` (with the uuid drawn
made explicit) or `resume`. -/
inductive Op where
  | opStart (id customer_id started_by : String)
  | opResume (id actor : String) (updates : List (String × Value))

/-- The engine state a call leaves behind. -/
def applyOp (e : EngineState) : Op → EngineState
  | .opStart id cid sb => (start e id cid sb).1
  | .opResume id a us => (resume e id a us).1

/-- The engine state after a whole sequence of calls from a fresh store. -/
def applyOps (e : EngineState) (ops : List Op) : EngineState := ops.foldl applyOp e

/-- The steps_history an instance carries at some point of its life. -/
def histOf (e : EngineState) (id : String) : List HistEntry := histOfS e.store id

/-- Freshness of the id a call draws: `start` never reuses a live uuid. -/
def OpFresh (e : EngineState) : Op → Prop
  | .opStart id _ _ => alistGet e.store.metas id = none
  | .opResume _ _ _ => True

theorem applyOp_good (e : EngineState) (op : Op)
    (hKey : KeyInvS e.store) (hInv : MetasInvS e.store) :
    KeyInvS (applyOp e op).store ∧ MetasInvS (applyOp e op).store ∧
    (OpFresh e op → StoreExtends e.store (applyOp e op).store) := by
  cases op with
  | opStart id cid sb =>
    obtain ⟨hK, hI, hX⟩ := start_good e id cid sb (start e id cid sb).1 (start e id cid sb).2
      rfl hKey hInv
    exact ⟨hK, hI, hX⟩
  | opResume id a us =>
    obtain ⟨hK, hI, hX⟩ := resume_good e id a us (resume e id a us).1 (resume e id a us).2
      rfl hKey hInv
    exact ⟨hK, hI, fun _ => hX⟩

theorem applyOps_inv (ops : List Op) : ∀ e : EngineState,
    KeyInvS e.store → MetasInvS e.store →
    KeyInvS (applyOps e ops).store ∧ MetasInvS (applyOps e ops).store := by
  induction ops with
  | nil => exact fun e hK hI => ⟨hK, hI⟩
  | cons op t ih =>
    intro e hK hI
    obtain ⟨hK', hI', _⟩ := applyOp_good e op hK hI
    exact ih (applyOp e op) hK' hI'

theorem engineInit_inv : KeyInvS engineInit.store ∧ MetasInvS engineInit.store := by
  constructor <;> intro k m hk <;> simp [engineInit, alistGet] at hk

/-- C8: at every point of every instance's life reachable by a sequence
of calls from a fresh engine, `steps_history` never holds two consecutive
entries with the same node, and any further call (with a fresh uuid when
it is a `start`) only appends to it, never rewrites it. -/
theorem C8_steps_history_append_only (ops : List Op) (id : String) :
    noConsecDupNodes (histOf (applyOps engineInit ops) id) = true ∧
    ∀ op : Op, OpFresh (applyOps engineInit ops) op →
      HistExtends (histOf (applyOps engineInit ops) id)
        (histOf (applyOps engineInit (ops ++ [op])) id) := by
  obtain ⟨hK, hI⟩ := applyOps_inv ops engineInit engineInit_inv.1 engineInit_inv.2
  constructor
  · unfold histOf histOfS
    cases hm : alistGet (applyOps engineInit ops).store.metas id with
    | none => rfl
    | some m => exact hI id m hm
  · intro op hfresh
    have happ : applyOps engineInit (ops ++ [op]) = applyOp (applyOps engineInit ops) op := by
      unfold applyOps
      rw [List.foldl_append]
      rfl
    rw [happ]
    obtain ⟨_, _, hX⟩ := applyOp_good (applyOps engineInit ops) op hK hI
    exact hX hfresh id

/-- Witness for C8: the trace of one `start` followed by a `resume`. -/
theorem C8_steps_history_append_only_witness :
    noConsecDupNodes (histOf (applyOps engineInit [.opStart "i1" "C1" "u1"]) "i1") = true ∧
    HistExtends (histOf (applyOps engineInit [.opStart "i1" "C1" "u1"]) "i1")
      (histOf (applyOps engineInit
        [.opStart "i1" "C1" "u1", .opResume "i1" "u2" [("validate", .vStr "yes")]]) "i1") := by
  exact ⟨(C8_steps_history_append_only [.opStart "i1" "C1" "u1"] "i1").1,
    (C8_steps_history_append_only [.opStart "i1" "C1" "u1"] "i1").2
      (.opResume "i1" "u2" [("validate", .vStr "yes")]) trivial⟩

/-- The full simp set for evaluating one traversal symbolically. -/
theorem bagUpdate_nil (b : Bag) : bagUpdate b [] = b := rfl

/-- A paused traversal from a state with its `start_time` already set
leaves a state that pauses again, identically and without clock drift,
when the traversal is re-run on it: every step re-evaluates the same
already-satisfied guards and the pausing step re-emits the same prompt. -/
theorem runValidate_paused_fix (u : ExecState) (t : Nat) (hu : u.meta.start_time = some t) :
    ∀ c c2 s' p, runValidate u c = .paused s' c2 p →
      s'.meta.last_node ≠ none ∧ ∀ d, graphInvoke s' d = .paused s' d p := by
  intro c c2 s' p h
  cases hv : bagGet u.bag "validate" with
  | none =>
    simp [runValidate, validate_request, ensure_defaults, hu, withLastNode, hv] at h
    obtain ⟨h1, h2, h3⟩ := h
    subst h1 h3
    refine ⟨by simp [withLastNode], ?_⟩
    intro d
    simp [graphInvoke, runValidate, validate_request, ensure_defaults, hu, withLastNode, hv]
  | some v =>
    by_cases hy : v = .vStr "yes"
    · subst hy
      simp [runValidate, validate_request, ensure_defaults, hu, withLastNode, hv,
        validateGuard] at h
      cases hcd : bagGet u.bag "claim_details" with
      | none =>
        simp [runGather, gather_claim_info, ensure_defaults, hu, withLastNode, hcd] at h
        obtain ⟨h1, h2, h3⟩ := h
        subst h1 h3
        refine ⟨by simp [withLastNode], ?_⟩
        intro d
        simp [graphInvoke, runValidate, validate_request, ensure_defaults, hu, withLastNode, hv,
          validateGuard, runGather, gather_claim_info, hcd]
      | some cd =>
        by_cases ht : cd.truthy = true
        · simp [runGather, gather_claim_info, ensure_defaults, hu, withLastNode, hcd,
            gatherGuard, ht] at h
          cases hpd : bagGet u.bag "process_decision" with
          | none =>
            simp [runIdentify, identify_accounts, ensure_defaults, hu, withLastNode, hpd] at h
            obtain ⟨h1, h2, h3⟩ := h
            subst h1 h3
            refine ⟨by simp [withLastNode], ?_⟩
            intro d
            simp [graphInvoke, runValidate, validate_request, ensure_defaults, hu, withLastNode,
              hv, validateGuard, runGather, gather_claim_info, hcd, gatherGuard, ht,
              runIdentify, identify_accounts, hpd]
          | some pd =>
            by_cases hpc : pd = .vStr "cancel"
            · subst hpc
              simp [runIdentify, identify_accounts, ensure_defaults, hu, withLastNode, hpd,
                identifyGuard, runCancel, cancel_request, bagSet] at h
            · by_cases hph : pd = .vStr "hold"
              · subst hph
                simp [runIdentify, identify_accounts, ensure_defaults, hu, withLastNode, hpd,
                  identifyGuard, hpc] at h
                cases hha : bagGet u.bag "hold_action" with
                | none =>
                  simp [runHold, hold_request, ensure_defaults, hu, withLastNode, hha] at h
                  obtain ⟨h1, h2, h3⟩ := h
                  subst h1 h3
                  refine ⟨by simp [withLastNode], ?_⟩
                  intro d
                  simp [graphInvoke, runValidate, validate_request, ensure_defaults, hu,
                    withLastNode, hv, validateGuard, runGather, gather_claim_info, hcd,
                    gatherGuard, ht, runIdentify, identify_accounts, hpd, identifyGuard,
                    runHold, hold_request, hha]
                | some ha =>
                  by_cases hhr : ha = .vStr "resume"
                  · subst hhr
                    simp [runHold, hold_request, ensure_defaults, hu, withLastNode, hha,
                      holdGuard] at h
                    cases hpf : bagGet u.bag "proceed_fulfill" with
                    | none =>
                      simp [runSuppress, apply_suppression, ensure_defaults, hu, withLastNode,
                        hpf] at h
                      obtain ⟨h1, h2, h3⟩ := h
                      subst h1 h3
                      refine ⟨by simp [withLastNode], ?_⟩
                      intro d
                      simp [graphInvoke, runValidate, validate_request, ensure_defaults, hu,
                        withLastNode, hv, validateGuard, runGather, gather_claim_info, hcd,
                        gatherGuard, ht, runIdentify, identify_accounts, hpd, identifyGuard,
                        runHold, hold_request, hha, holdGuard, runSuppress, apply_suppression,
                        hpf]
                    | some pf =>
                      by_cases hfy : pf = .vStr "yes"
                      · subst hfy
                        simp [runSuppress, apply_suppression, ensure_defaults, hu, withLastNode,
                          hpf, suppressGuard, runFulfill, fulfill_case, bagSet] at h
                      · by_cases hfn : pf = .vStr "no"
                        · subst hfn
                          simp [runSuppress, apply_suppression, ensure_defaults, hu,
                            withLastNode, hpf, suppressGuard, runCancel, cancel_request,
                            bagSet] at h
                        · simp [runSuppress, apply_suppression, ensure_defaults, hu,
                            withLastNode, hpf, suppressGuard, hfy, hfn] at h
                  · by_cases hhb : ha = .vStr "abort"
                    · subst hhb
                      simp [runHold, hold_request, ensure_defaults, hu, withLastNode, hha,
                        holdGuard, runCancel, cancel_request, bagSet] at h
                    · simp [runHold, hold_request, ensure_defaults, hu, withLastNode, hha,
                        holdGuard, hhr, hhb] at h
              · by_cases hps : pd = .vStr "suppress"
                · subst hps
                  simp [runIdentify, identify_accounts, ensure_defaults, hu, withLastNode, hpd,
                    identifyGuard, hpc, hph] at h
                  cases hpf : bagGet u.bag "proceed_fulfill" with
                  | none =>
                    simp [runSuppress, apply_suppression, ensure_defaults, hu, withLastNode,
                      hpf] at h
                    obtain ⟨h1, h2, h3⟩ := h
                    subst h1 h3
                    refine ⟨by simp [withLastNode], ?_⟩
                    intro d
                    simp [graphInvoke, runValidate, validate_request, ensure_defaults, hu,
                      withLastNode, hv, validateGuard, runGather, gather_claim_info, hcd,
                      gatherGuard, ht, runIdentify, identify_accounts, hpd, identifyGuard,
                      hpc, hph, runSuppress, apply_suppression, hpf]
                  | some pf =>
                    by_cases hfy : pf = .vStr "yes"
                    · subst hfy
                      simp [runSuppress, apply_suppression, ensure_defaults, hu, withLastNode,
                        hpf, suppressGuard, runFulfill, fulfill_case, bagSet] at h
                    · by_cases hfn : pf = .vStr "no"
                      · subst hfn
                        simp [runSuppress, apply_suppression, ensure_defaults, hu, withLastNode,
                          hpf, suppressGuard, runCancel, cancel_request, bagSet] at h
                      · simp [runSuppress, apply_suppression, ensure_defaults, hu, withLastNode,
                          hpf, suppressGuard, hfy, hfn] at h
                · simp [runIdentify, identify_accounts, ensure_defaults, hu, withLastNode, hpd,
                    identifyGuard, hpc, hph, hps] at h
        · simp [runGather, gather_claim_info, ensure_defaults, hu, withLastNode, hcd,
            gatherGuard, ht] at h
    · by_cases hn : v = .vStr "no"
      · subst hn
        simp [runValidate, validate_request, ensure_defaults, hu, withLastNode, hv,
          validateGuard, runCancel, cancel_request, bagSet] at h
      · simp [runValidate, validate_request, ensure_defaults, hu, withLastNode, hv,
          validateGuard, hy, hn] at h

/-- Top-level form of the re-pause property: whatever state a paused
traversal leaves behind has `last_node` set and is a fixpoint that
re-pauses with the same prompt at any later time. -/
theorem graphInvoke_paused_fix (s : ExecState) (c c' : Nat) (s' : ExecState) (p : String)
    (h : graphInvoke s c = .paused s' c' p) :
    s'.meta.last_node ≠ none ∧ ∀ d, graphInvoke s' d = .paused s' d p := by
  cases hst : s.meta.start_time with
  | some t => exact runValidate_paused_fix s t hst c c' s' p h
  | none =>
    have hsw : graphInvoke s c =
        runValidate { s with meta := { s.meta with start_time := some c } } (c + 1) := by
      simp [graphInvoke, runValidate, validate_request, ensure_defaults, hst]
    rw [hsw] at h
    exact runValidate_paused_fix _ c rfl (c + 1) c' s' p h

/-- `defaultLastNode` is the identity on any state whose `last_node` is
already set — in particular on every pause state. -/
theorem defaultLastNode_of_some (s : ExecState) (h : s.meta.last_node ≠ none) :
    defaultLastNode s = s := by
  unfold defaultLastNode
  cases hl : s.meta.last_node with
  | none => exact absurd hl h
  | some x => rfl

/-- Last-node bookkeeping of a successful projection: the recorded
`last_node` and the last history node both become the state's
`last_node`, and nothing is appended when it already was the last
recorded node. -/
theorem updateMetaFromState_ok_hist (E : EngineState) (id actor : String) (s : ExecState)
    (E' : EngineState) (M : InstanceMeta) (m : InstanceMeta) (ln : String)
    (h : updateMetaFromState E id actor s = (E', .ok M))
    (hm : alistGet E.store.metas id = some m)
    (hln : s.meta.last_node = some ln) :
    M.last_node = some ln ∧
    (M.steps_history.getLast?).map (·.node) = some ln ∧
    ((m.steps_history.getLast?).map (·.node) = some ln → M.steps_history = m.steps_history) := by
  unfold updateMetaFromState at h
  rw [hm, hln] at h
  dsimp only at h
  cases hse : s.meta.end_time
  all_goals rw [hse] at h
  all_goals cases hss : s.meta.start_time
  all_goals rw [hss] at h
  all_goals cases hms : m.start_time
  all_goals rw [hms] at h
  all_goals dsimp only at h
  all_goals split at h
  all_goals
    rename_i hcond
    injection h with h1 h2
    injection h2 with h2
    subst h2
  all_goals refine ⟨rfl, ?_, ?_⟩
  all_goals first
    | (rw [List.getLast?_concat]
       rfl)
    | (intro hlast
       exact absurd hlast.symm hcond)
    | (intro hlast
       rfl)
    | (simp only [ne_eq, not_not] at hcond
       exact hcond.symm)

/-- What a run that returned a paused summary leaves in the store: the
persisted state is a pause fixpoint for that prompt, its `last_node` is
the pausing node, and the persisted metadata carries that node as
`last_node` and as the node of its last history entry. -/
theorem engineRun_paused_state (e : EngineState) (id0 : String) (s : ExecState) (actor : String)
    (e₁ : EngineState) (p pid : String)
    (hrun : engineRun e id0 s actor = (e₁, .ok (.pausedS p pid)))
    (hKey : KeyInvS e.store) (hInv : MetasInvS e.store) :
    pid = id0 ∧
    ∃ (s₁ : ExecState) (ln : String) (m : InstanceMeta),
      alistGet e₁.store.states id0 = some s₁ ∧
      s₁.meta.last_node = some ln ∧
      (∀ d, graphInvoke s₁ d = .paused s₁ d p) ∧
      alistGet e₁.store.metas id0 = some m ∧
      m.last_node = some ln ∧
      (m.steps_history.getLast?).map (·.node) = some ln := by
  unfold engineRun at hrun
  cases hg : graphInvoke s e.clock <;> rw [hg] at hrun <;> dsimp only at hrun
  case done r₀ c =>
    repeat' split at hrun
    all_goals simp at hrun
  case paused s₀ c p₀ =>
    obtain ⟨hlnne, hfix⟩ := graphInvoke_paused_fix _ _ _ _ _ hg
    have hdef : defaultLastNode s₀ = s₀ := defaultLastNode_of_some _ hlnne
    rw [hdef] at hrun
    obtain ⟨ln, hln⟩ : ∃ ln, s₀.meta.last_node = some ln := by
      cases hl : s₀.meta.last_node with
      | none => exact absurd hl hlnne
      | some x => exact ⟨x, rfl⟩
    split at hrun
    · simp at hrun
    · rename_i e₂ M₁ heq₁
      cases hm0 : alistGet e.store.metas id0 with
      | none =>
        rw [updateMetaFromState_none
          { store := putState e.store id0 s₀, clock := c } id0 actor s₀ hm0] at heq₁
        simp at heq₁
      | some m₀ =>
        obtain ⟨hK₁, hI₁, hX₁, hMid₁, hdup₁, hget₁⟩ :=
          updateMeta_ok_good _ _ _ _ _ _ heq₁ hKey hInv
        obtain ⟨hst₁store, _, _, _, _, _⟩ := updateMetaFromState_ok_spec _ _ _ _ _ _ heq₁
        obtain ⟨hMln₁, hMlast₁, _⟩ :=
          updateMetaFromState_ok_hist _ _ _ _ _ _ m₀ ln heq₁ hm0 hln
        by_cases hov : M₁.status ≠ "completed" ∧ M₁.status ≠ "aborted"
        · rw [if_pos hov] at hrun
          dsimp only at hrun
          obtain ⟨hK₂, hI₂, hX₂, hget₂⟩ :=
            putMeta_samehist_good e₂.store M₁ { M₁ with status := "paused" }
              (by rw [show ({ M₁ with status := "paused" } : InstanceMeta).instance_id = id0
                    from hMid₁]
                  exact hget₁) rfl hK₁ hI₁
          split at hrun
          · simp at hrun
          · rename_i e₃ M₂ heq₂
            obtain ⟨hst₃, _, _, _, _, _⟩ := updateMetaFromState_ok_spec _ _ _ _ _ _ heq₂
            obtain ⟨hK₃, hI₃, hX₃, hMid₂, hdup₂, hget₃⟩ :=
              updateMeta_ok_good _ _ _ _ _ _ heq₂ hK₂ hI₂
            have hget₂i : alistGet (putMeta e₂.store
                ({ M₁ with status := "paused" })).metas id0 =
                some ({ M₁ with status := "paused" } : InstanceMeta) := by
              rw [← hMid₁]
              exact hget₂
            obtain ⟨hMln₂, hMlast₂, _⟩ :=
              updateMetaFromState_ok_hist _ _ _ _ _ _ ({ M₁ with status := "paused" }) ln heq₂
                hget₂i hln
            injection hrun with h1 h2
            injection h2 with h2
            injection h2 with hp hid
            subst h1
            subst hp
            subst hid
            refine ⟨rfl, s₀, ln, M₂, ?_, hln, hfix, ?_, hMln₂, hMlast₂⟩
            · rw [show ({ e₃ with store := putMeta e₃.store M₂ } : EngineState).store.states =
                  e₃.store.states from rfl, hst₃]
              show alistGet e₂.store.states id0 = some s₀
              rw [hst₁store]
              show alistGet (alistPut e.store.states id0 s₀) id0 = some s₀
              exact alistGet_alistPut_self _ _ _
            · rw [show ({ e₃ with store := putMeta e₃.store M₂ } : EngineState).store.metas =
                  alistPut e₃.store.metas M₂.instance_id M₂ from rfl, hMid₂]
              exact alistGet_alistPut_self _ _ _
        · rw [if_neg hov] at hrun
          dsimp only at hrun
          split at hrun
          · simp at hrun
          · rename_i e₃ M₂ heq₂
            obtain ⟨hst₃, _, _, _, _, _⟩ := updateMetaFromState_ok_spec _ _ _ _ _ _ heq₂
            obtain ⟨hK₃, hI₃, hX₃, hMid₂, hdup₂, hget₃⟩ :=
              updateMeta_ok_good _ _ _ _ _ _ heq₂ hK₁ hI₁
            obtain ⟨hMln₂, hMlast₂, _⟩ :=
              updateMetaFromState_ok_hist _ _ _ _ _ _ M₁ ln heq₂ hget₁ hln
            injection hrun with h1 h2
            injection h2 with h2
            injection h2 with hp hid
            subst h1
            subst hp
            subst hid
            refine ⟨rfl, s₀, ln, M₂, ?_, hln, hfix, ?_, hMln₂, hMlast₂⟩
            · rw [show ({ e₃ with store := putMeta e₃.store M₂ } : EngineState).store.states =
                  e₃.store.states from rfl, hst₃]
              show alistGet e₂.store.states id0 = some s₀
              rw [hst₁store]
              show alistGet (alistPut e.store.states id0 s₀) id0 = some s₀
              exact alistGet_alistPut_self _ _ _
            · rw [show ({ e₃ with store := putMeta e₃.store M₂ } : EngineState).store.metas =
                  alistPut e₃.store.metas M₂.instance_id M₂ from rfl, hMid₂]
              exact alistGet_alistPut_self _ _ _

/-- One external call together with its returned summary. -/
def applyCall (e : EngineState) : Op → EngineState × Except String Summary
  | .opStart id cid sb => start e id cid sb
  | .opResume id a us => resume e id a us

theorem applyOp_eq_applyCall (e : EngineState) (op : Op) :
    applyOp e op = (applyCall e op).1 := by
  cases op <;> rfl

/-- Lifting of `engineRun_paused_state` to a whole call. -/
theorem call_paused_state (e : EngineState) (op : Op) (e₁ : EngineState) (p id : String)
    (hKey : KeyInvS e.store) (hInv : MetasInvS e.store)
    (hop : applyCall e op = (e₁, .ok (.pausedS p id))) :
    ∃ (s₁ : ExecState) (ln : String) (m : InstanceMeta),
      alistGet e₁.store.states id = some s₁ ∧
      s₁.meta.last_node = some ln ∧
      (∀ d, graphInvoke s₁ d = .paused s₁ d p) ∧
      alistGet e₁.store.metas id = some m ∧
      m.last_node = some ln ∧
      (m.steps_history.getLast?).map (·.node) = some ln := by
  cases op with
  | opStart id0 cid sb =>
    unfold applyCall start at hop
    dsimp only at hop
    obtain ⟨hpid, rest⟩ := engineRun_paused_state _ _ _ _ _ _ _ hop
      (by
        intro k m hk
        simp only [appendEvent, addToIndex_metas, putMeta, putState] at hk
        by_cases hkk : k = id0
        · subst hkk
          rw [alistGet_alistPut_self] at hk
          cases hk
          rfl
        · rw [alistGet_alistPut_ne _ _ _ _ hkk] at hk
          exact hKey k m hk)
      (by
        intro k m hk
        simp only [appendEvent, addToIndex_metas, putMeta, putState] at hk
        by_cases hkk : k = id0
        · subst hkk
          rw [alistGet_alistPut_self] at hk
          cases hk
          rfl
        · rw [alistGet_alistPut_ne _ _ _ _ hkk] at hk
          exact hInv k m hk)
    subst hpid
    exact rest
  | opResume id0 a us =>
    unfold applyCall resume at hop
    dsimp only at hop
    cases hst : alistGet e.store.states id0 <;> rw [hst] at hop
    · simp at hop
    · dsimp only at hop
      obtain ⟨hpid, rest⟩ := engineRun_paused_state _ _ _ _ _ _ _ hop hKey hInv
      subst hpid
      exact rest

theorem updateMetaFromState_error_none (E : EngineState) (id actor : String) (s : ExecState)
    (E' : EngineState) (msg : String)
    (h : updateMetaFromState E id actor s = (E', .error msg)) :
    alistGet E.store.metas id = none := by
  cases hm : alistGet E.store.metas id with
  | none => rfl
  | some m =>
    obtain ⟨E₂, M, hok⟩ := updateMetaFromState_ok_of_some E id actor s _ hm
    rw [hok] at h
    injection h with _ h2
    exact absurd h2 (by simp)

/-- C3: calling `resume` with an empty updates mapping on an instance
whose previous call (start or resume) returned a paused summary returns
the very same paused prompt, leaves the persisted bag unchanged, and
leaves `last_node` (in the execution state and in the metadata) and the
metadata's `steps_history` unchanged. -/
theorem C3_resume_empty_idempotent (e : EngineState) (op : Op) (e₁ e₂ : EngineState)
    (p id actor : String) (r₂ : Except String Summary)
    (hKey : KeyInvS e.store) (hInv : MetasInvS e.store)
    (hprev : applyCall e op = (e₁, .ok (.pausedS p id)))
    (hres : resume e₁ id actor [] = (e₂, r₂)) :
    r₂ = .ok (.pausedS p id) ∧
    (alistGet e₂.store.states id).map (·.bag) = (alistGet e₁.store.states id).map (·.bag) ∧
    (alistGet e₂.store.states id).map (·.meta.last_node) =
      (alistGet e₁.store.states id).map (·.meta.last_node) ∧
    (alistGet e₂.store.metas id).map (·.last_node) =
      (alistGet e₁.store.metas id).map (·.last_node) ∧
    (alistGet e₂.store.metas id).map (·.steps_history) =
      (alistGet e₁.store.metas id).map (·.steps_history) := by
  obtain ⟨s₁, ln, m, hs, hln, hfix, hm, hmln, hmlast⟩ :=
    call_paused_state e op e₁ p id hKey hInv hprev
  have he₁ : (applyCall e op).1 = e₁ := by rw [hprev]
  obtain ⟨hKey₁, hInv₁, _⟩ := applyOp_good e op hKey hInv
  rw [applyOp_eq_applyCall, he₁] at hKey₁ hInv₁
  unfold resume at hres
  rw [hs] at hres
  dsimp only at hres
  simp only [bagUpdate_nil] at hres
  unfold engineRun at hres
  rw [hfix] at hres
  dsimp only at hres
  rw [defaultLastNode_of_some s₁ (by rw [hln]; simp)] at hres
  split at hres
  · rename_i e₃ msg heq₁
    have hnone := updateMetaFromState_error_none _ _ _ _ _ _ heq₁
    have hcontra : (some m : Option InstanceMeta) = none := by
      rw [← hm]
      exact hnone
    exact absurd hcontra (by simp)
  · rename_i e₃ M₁ heq₁
    obtain ⟨hM₁ln, hM₁last, hM₁same⟩ := updateMetaFromState_ok_hist _ _ _ _ _ _ m ln heq₁ hm hln
    have hM₁hist : M₁.steps_history = m.steps_history := hM₁same hmlast
    obtain ⟨hK₁, hI₁, hX₁, hMid₁, hdup₁, hget₁⟩ := updateMeta_ok_good _ _ _ _ _ _ heq₁ hKey₁ hInv₁
    obtain ⟨hst₁store, _, _, _, _, _⟩ := updateMetaFromState_ok_spec _ _ _ _ _ _ heq₁
    by_cases hov : M₁.status ≠ "completed" ∧ M₁.status ≠ "aborted"
    · rw [if_pos hov] at hres
      dsimp only at hres
      have hget₂i : alistGet (putMeta e₃.store ({ M₁ with status := "paused" })).metas id =
          some ({ M₁ with status := "paused" } : InstanceMeta) := by
        rw [← hMid₁]
        exact alistGet_alistPut_self _ _ _
      obtain ⟨hK₂, hI₂, hX₂, _⟩ :=
        putMeta_samehist_good e₃.store M₁ { M₁ with status := "paused" }
          (by rw [show ({ M₁ with status := "paused" } : InstanceMeta).instance_id = id from hMid₁]
              exact hget₁) rfl hK₁ hI₁
      split at hres
      · rename_i e₄ msg heq₂
        have hnone := updateMetaFromState_error_none _ _ _ _ _ _ heq₂
        have hcontra : (some ({ M₁ with status := "paused" } : InstanceMeta) :
            Option InstanceMeta) = none := by
          rw [← hget₂i]
          exact hnone
        exact absurd hcontra (by simp)
      · rename_i e₄ M₂ heq₂
        obtain ⟨hM₂ln, hM₂last, hM₂same⟩ :=
          updateMetaFromState_ok_hist _ _ _ _ _ _ ({ M₁ with status := "paused" }) ln heq₂
            hget₂i hln
        have hM₂hist : M₂.steps_history = m.steps_history := by
          rw [hM₂same (by
            show (M₁.steps_history.getLast?).map (·.node) = some ln
            exact hM₁last)]
          exact hM₁hist
        obtain ⟨hst₂store, _, _, _, _, _⟩ := updateMetaFromState_ok_spec _ _ _ _ _ _ heq₂
        obtain ⟨_, _, _, hMid₂, _, hget₄⟩ := updateMeta_ok_good _ _ _ _ _ _ heq₂ hK₂ hI₂
        injection hres with h1 h2
        subst h1
        subst h2
        refine ⟨rfl, ?_, ?_, ?_, ?_⟩
        · rw [show ({ e₄ with store := putMeta e₄.store M₂ } : EngineState).store.states =
              e₄.store.states from rfl, hst₂store, hst₁store]
          show (alistGet (alistPut (alistPut e₁.store.states id s₁) id s₁) id).map (·.bag) = _
          rw [alistGet_alistPut_self, hs]
        · rw [show ({ e₄ with store := putMeta e₄.store M₂ } : EngineState).store.states =
              e₄.store.states from rfl, hst₂store, hst₁store]
          show (alistGet (alistPut (alistPut e₁.store.states id s₁) id s₁) id).map
            (·.meta.last_node) = _
          rw [alistGet_alistPut_self, hs]
        · show (alistGet (alistPut e₄.store.metas M₂.instance_id M₂) id).map (·.last_node) = _
          rw [hMid₂, alistGet_alistPut_self, hm]
          show some M₂.last_node = some m.last_node
          rw [hM₂ln, hmln]
        · show (alistGet (alistPut e₄.store.metas M₂.instance_id M₂) id).map (·.steps_history) = _
          rw [hMid₂, alistGet_alistPut_self, hm]
          show some M₂.steps_history = some m.steps_history
          rw [hM₂hist]
    · rw [if_neg hov] at hres
      dsimp only at hres
      split at hres
      · rename_i e₄ msg heq₂
        have hnone := updateMetaFromState_error_none _ _ _ _ _ _ heq₂
        have hcontra : (some M₁ : Option InstanceMeta) = none := by
          rw [← hget₁]
          exact hnone
        exact absurd hcontra (by simp)
      · rename_i e₄ M₂ heq₂
        obtain ⟨hM₂ln, hM₂last, hM₂same⟩ :=
          updateMetaFromState_ok_hist _ _ _ _ _ _ M₁ ln heq₂ hget₁ hln
        have hM₂hist : M₂.steps_history = m.steps_history := by
          rw [hM₂same hM₁last]
          exact hM₁hist
        obtain ⟨hst₂store, _, _, _, _, _⟩ := updateMetaFromState_ok_spec _ _ _ _ _ _ heq₂
        obtain ⟨_, _, _, hMid₂, _, hget₄⟩ := updateMeta_ok_good _ _ _ _ _ _ heq₂ hK₁ hI₁
        injection hres with h1 h2
        subst h1
        subst h2
        refine ⟨rfl, ?_, ?_, ?_, ?_⟩
        · rw [show ({ e₄ with store := putMeta e₄.store M₂ } : EngineState).store.states =
              e₄.store.states from rfl, hst₂store]
          show (alistGet e₃.store.states id).map (·.bag) = _
          rw [hst₁store]
          show (alistGet (alistPut (alistPut e₁.store.states id s₁) id s₁) id).map (·.bag) = _
          rw [alistGet_alistPut_self, hs]
        · rw [show ({ e₄ with store := putMeta e₄.store M₂ } : EngineState).store.states =
              e₄.store.states from rfl, hst₂store]
          show (alistGet e₃.store.states id).map (·.meta.last_node) = _
          rw [hst₁store]
          show (alistGet (alistPut (alistPut e₁.store.states id s₁) id s₁) id).map
            (·.meta.last_node) = _
          rw [alistGet_alistPut_self, hs]
        · show (alistGet (alistPut e₄.store.metas M₂.instance_id M₂) id).map (·.last_node) = _
          rw [hMid₂, alistGet_alistPut_self, hm]
          show some M₂.last_node = some m.last_node
          rw [hM₂ln, hmln]
        · show (alistGet (alistPut e₄.store.metas M₂.instance_id M₂) id).map (·.steps_history) = _
          rw [hMid₂, alistGet_alistPut_self, hm]
          show some M₂.steps_history = some m.steps_history
          rw [hM₂hist]

/-- Witness for C3: an empty resume right after the paused `start` of the
cancel scenario re-emits the same prompt and changes neither the bag nor
`last_node` nor the step history. -/
theorem C3_resume_empty_idempotent_witness :
    (resume cancelTrace1.1 "i1" "u9" []).2 =
      .ok (.pausedS "Validate request? (yes/no)" "i1") ∧
    (alistGet (resume cancelTrace1.1 "i1" "u9" []).1.store.states "i1").map (·.bag) =
      (alistGet cancelTrace1.1.store.states "i1").map (·.bag) ∧
    (alistGet (resume cancelTrace1.1 "i1" "u9" []).1.store.metas "i1").map (·.steps_history) =
      (alistGet cancelTrace1.1.store.metas "i1").map (·.steps_history) := by
  have h := C3_resume_empty_idempotent engineInit (.opStart "i1" "C1" "u1") cancelTrace1.1
    (resume cancelTrace1.1 "i1" "u9" []).1 "Validate request? (yes/no)" "i1" "u9"
    (resume cancelTrace1.1 "i1" "u9" []).2 engineInit_inv.1 engineInit_inv.2 rfl rfl
  exact ⟨h.1, h.2.1, h.2.2.2.2⟩
